import Mathlib

/-!
# Verification of the Huffman coding tree program (`huffmantree.cpp`)

This file is a shallow embedding of the core logic of the repository's single
source file, `Huffman Coding Tree/huffmantree.cpp`, together with proofs and
refutations of the specified properties.

Modelling conventions:

* Byte/character streams are `List Char`; the file contents read and written
  by the program are modelled as such lists (the CLI and file handling are
  out of scope per the spec).
* `std::unordered_map` is modelled as an association list with
  overwrite-in-place assignment.  Its iteration order is unspecified in C++;
  the model iterates in insertion order.  Every property proved below about
  a fixed iteration order also holds for any other order, and every
  counterexample below is independent of the order (noted where relevant).
* `std::priority_queue<CountNode*, vector<CountNode*>, NodeComparison>` with
  comparison `count1 > count2` is a min-heap on `count`.  The C++ standard
  leaves the relative extraction order of equal-weight elements
  implementation-defined (the spec documents this as such); the model keeps
  the queue as a weight-sorted list with FIFO order among equal weights.
  All concrete executions used as counterexamples below involve no weight
  ties at any step, so they are independent of this choice.
* `int` is modelled as `Int`; the only place where the `int` range matters
  is `std::stoi`, which raises `std::out_of_range` outside
  `[-2147483648, 2147483647]`; this is modelled by an explicit range check.
  Exceptions (`std::invalid_argument`, `std::out_of_range` from `stoi`),
  which the program never catches, are modelled with `Except`.
-/

namespace HuffmanCpp

/-- Association-list assignment, `m[k] = v` on `std::unordered_map`:
overwrite the existing entry in place, otherwise add a new entry. -/
def alSet {α β : Type} [DecidableEq α] : List (α × β) → α → β → List (α × β)
  | [], a, b => [(a, b)]
  | (k, v) :: t, a, b => if k = a then (a, b) :: t else (k, v) :: alSet t a b

/-- Association-list lookup, `m.find(k)` on `std::unordered_map`. -/
def alGet {α β : Type} [DecidableEq α] : List (α × β) → α → Option β
  | [], _ => none
  | (k, v) :: t, a => if k = a then some v else alGet t a

/-- One step of the frequency-counting loop of
`HuffmanTree::countCharFrequencies`: `charCounts[ch] += 1` if present,
else `charCounts[ch] = 1`. -/
def bumpCount (m : List (Char × Nat)) (c : Char) : List (Char × Nat) :=
  match alGet m c with
  | some n => alSet m c (n + 1)
  | none => alSet m c 1

/-- The frequency table built by `HuffmanTree::countCharFrequencies` from the
input character stream. -/
def countCharFrequencies (s : List Char) : List (Char × Nat) :=
  s.foldl bumpCount []

/-- The node type of the C++ program: `CountNode` (an internal node carrying
only a count) and its subclass `HuffmanTreeNode` (carrying a letter).  Null
child pointers are modelled by `empty`.  `HuffmanTreeNode` inherits the two
child fields, which `reconstructTree` can populate, so `huff` also carries
children. -/
inductive CNode : Type
  | empty : CNode
  | count : Nat → CNode → CNode → CNode
  | huff : Char → Nat → CNode → CNode → CNode
  deriving DecidableEq, Repr

namespace CNode

/-- Model of `node->count` (0 for a null pointer; never consulted on null). -/
def wt : CNode → Nat
  | empty => 0
  | count c _ _ => c
  | huff _ c _ _ => c

/-- The letters carried by the `HuffmanTreeNode`s of a tree, in left-to-right
order (children of a `HuffmanTreeNode` are never visited, matching the
virtual-dispatch recursion of `traverseForCodeMap`). -/
def letters : CNode → List Char
  | empty => []
  | count _ l r => letters l ++ letters r
  | huff ch _ _ _ => [ch]

end CNode

/-- Model of `traverseForCodeMap`, the virtual pre-order traversal.  On a `CountNode`
it recurses into the non-null children, appending `'0'` going left and `'1'`
going right (left first); the `HuffmanTreeNode` override records
`codeMap[letter] = bits` and does not recurse. -/
def traverseForCodeMap : CNode → List Char → List (Char × List Char) → List (Char × List Char)
  | .empty, _, m => m
  | .count _ l r, bits, m =>
      traverseForCodeMap r (bits ++ ['1']) (traverseForCodeMap l (bits ++ ['0']) m)
  | .huff ch _ _ _, bits, m => alSet m ch bits

/-- Insertion into the min-heap model: a `count`-sorted list, new node placed
after all entries of smaller or equal weight (FIFO among ties; see the header
comment on tie-breaking). -/
def heapPush (n : CNode) : List CNode → List CNode
  | [] => [n]
  | h :: t => if h.wt ≤ n.wt then h :: heapPush n t else n :: h :: t

/-- The heap `nodeHeap` built by `countCharFrequencies`: one
`HuffmanTreeNode(ch, count)` per frequency entry, pushed in table order. -/
def nodeHeapOf (s : List Char) : List CNode :=
  (countCharFrequencies s).foldl (fun h p => heapPush (.huff p.1 p.2 .empty .empty) h) []

/-- The `while (nodeHeap.size() > 1)` loop of `HuffmanTree::buildTree`,
with an explicit step bound (the heap shrinks by one per iteration, so a
bound equal to the heap size always suffices): pop the two lowest nodes,
combine them into a `CountNode` whose right child is the first pop and left
child the second, with `count` the sum, and push the result; the last
remaining node is the root. -/
def mergeLoopF : Nat → List CNode → CNode
  | _, [] => .empty
  | _, [t] => t
  | 0, a :: _ :: _ => a
  | f + 1, a :: b :: r => mergeLoopF f (heapPush (.count (a.wt + b.wt) b a) r)

/-- The merge loop run to completion (the bound `l.length` is exact). -/
def mergeLoop (l : List CNode) : CNode :=
  mergeLoopF l.length l

/-- Model of `HuffmanTree::buildTree`; returns `none` when the heap is empty (the
early `return`).  Otherwise the first block pops one node into the right
child of a fresh `CountNode` root (and a second node, if any, into the left
child), pushes that root, and runs the merge loop. -/
def buildTree : List CNode → Option CNode
  | [] => none
  | n1 :: rest =>
    match rest with
    | [] => some (mergeLoop (heapPush (.count n1.wt .empty n1) []))
    | n2 :: rest2 => some (mergeLoop (heapPush (.count (n1.wt + n2.wt) n2 n1) rest2))

/-- The tree built by `encode`'s pipeline (`countCharFrequencies` then
`buildTree`) on input `s`; `none` when `s` is empty. -/
def builtTreeOf (s : List Char) : Option CNode :=
  buildTree (nodeHeapOf s)

/-- The `codeMap` derived by `buildTree` via `root->traverseForCodeMap(codeMap)`
(empty when the input was empty and the tree was never built). -/
def codeMapOf (s : List Char) : List (Char × List Char) :=
  match builtTreeOf s with
  | none => []
  | some t => traverseForCodeMap t [] []

/-- The character-encoding table section written by `HuffmanTree::encode`:
one line `<symbol><code>\n` per `codeMap` entry, in map iteration order. -/
def tableOf (s : List Char) : List Char :=
  (codeMapOf s).flatMap (fun p => p.1 :: p.2 ++ ['\n'])

/-- The encoded payload written by `HuffmanTree::encode`: the input re-scanned
with every character replaced by `codeMap[ch]` (`operator[]` yields the empty
string for an absent key). -/
def payloadOf (s : List Char) : List Char :=
  s.flatMap (fun c => (alGet (codeMapOf s) c).getD [])

/-- The full contents of the `_encoded.txt` output file written by
`HuffmanTree::encode`: the table section, the blank terminator line, then the
payload.  The output file is created unconditionally at the start of
`encode`, before `countCharFrequencies` runs, so this function is total: an
empty input still yields a file holding the lone terminator newline. -/
def encode (s : List Char) : List Char :=
  tableOf s ++ ['\n'] ++ payloadOf s

/-- Whitespace for the default C locale, as used by `std::stoi` (leading
whitespace skip) and formatted extraction `input >> ch` (`skipws`). -/
def isWS (c : Char) : Bool :=
  c = ' ' || c = '\t' || c = '\n' || c = '\x0B' || c = '\x0C' || c = '\r'

/-- Decimal digit test. -/
def isDig (c : Char) : Bool :=
  '0' ≤ c && c ≤ '9'

/-- Model of `std::stoi`: skip leading whitespace, read an optional sign and a decimal
digit run.  No digits raises `std::invalid_argument`; a value outside the
`int` range raises `std::out_of_range`.  Both exceptions are uncaught by the
program, so both are collapsed into `Except.error`. -/
def stoi (s : List Char) : Except Unit Int :=
  let s1 := s.dropWhile isWS
  let sgn : Int := if s1.head? = some '-' then -1 else 1
  let s2 : List Char := if s1.head? = some '-' ∨ s1.head? = some '+' then s1.tail else s1
  let ds := s2.takeWhile isDig
  if ds = [] then .error ()
  else
    let v : Int := sgn * ((ds.foldl (fun a c => a * 10 + (c.toNat - '0'.toNat)) 0 : Nat) : Int)
    if v < -2147483648 ∨ 2147483647 < v then .error () else .ok v

/-- Model of the `current->right` / `current->left` selection (`dir = true` is right). -/
def childOf (t : CNode) (dir : Bool) : CNode :=
  match t with
  | .empty => .empty
  | .count _ l r => if dir then r else l
  | .huff _ _ l r => if dir then r else l

/-- Assignment to `current->right` / `current->left` (`dir = true` is right).
Never reached with `t = empty` (the walk only descends into freshly created
or existing nodes). -/
def setChild (t : CNode) (dir : Bool) (c : CNode) : CNode :=
  match t with
  | .empty => .empty
  | .count n l r => if dir then .count n l c else .count n c r
  | .huff ch n l r => if dir then .huff ch n l c else .huff ch n c r

/-- The per-record tree-mutation loop of `HuffmanTree::reconstructTree`:
`binary = stoi(s_binary)`, then `while (length-- > 1)` steps to the child
selected by `binary & 1` (`1` right, `0` left), creating a fresh
`CountNode()` when the pointer is null, shifting `binary >>= 1` each step;
finally the child selected by the remaining `binary & 1` is assigned a new
`HuffmanTreeNode(ch)` (count 0), overwriting any existing subtree there.
`&1`/`>>=1` on a (possibly negative) two's-complement `int` are `emod 2` and
`fdiv 2`. -/
def insertWalk : CNode → Int → Nat → Char → CNode
  | t, binary, 0, ch => setChild t (Int.emod binary 2 = 1) (.huff ch 0 .empty .empty)
  | t, binary, 1, ch => setChild t (Int.emod binary 2 = 1) (.huff ch 0 .empty .empty)
  | t, binary, n + 2, ch =>
    let d : Bool := Int.emod binary 2 = 1
    let c0 := childOf t d
    let c1 := if c0 = .empty then .count 0 .empty .empty else c0
    setChild t d (insertWalk c1 (Int.fdiv binary 2) (n + 1) ch)

/-- Model of `std::getline(input, line)`: it fails (returns `none`) exactly when the
stream is already exhausted; otherwise yields the characters up to the first
`'\n'` (consumed and discarded) or end of input. -/
def splitLine (s : List Char) : Option (List Char × List Char) :=
  match s with
  | [] => none
  | _ => some (s.takeWhile (fun c => c != '\n'),
               (s.dropWhile (fun c => c != '\n')).drop 1)

/-- The `while (getline(input, line))` loop of `HuffmanTree::reconstructTree`.
It carries `codeMap`, `reverseCodeMap` and the (function-local) root.  For
each non-empty line: `ch = line[0]`, `s_binary = line.substr(1)`, the two
maps are assigned, `stoi` runs (an exception aborts the whole program, hence
`Except.error`), and the tree walk inserts the leaf.  An empty line breaks
the loop; the remaining stream is returned for the payload phase. -/
def reconLoopF (fuel : Nat) (input : List Char) (cm : List (Char × List Char))
    (rcm : List (List Char × Char)) (t : CNode) :
    Except Unit (List (Char × List Char) × List (List Char × Char) × CNode × List Char) :=
  match fuel with
  | 0 => .ok (cm, rcm, t, [])
  | fuel + 1 =>
    match splitLine input with
    | none => .ok (cm, rcm, t, [])
    | some (line, rest) =>
      match line with
      | [] => .ok (cm, rcm, t, rest)
      | ch :: codeStr =>
        let cm' := alSet cm ch codeStr
        let rcm' := alSet rcm codeStr ch
        match stoi codeStr with
        | .error _ => .error ()
        | .ok b => reconLoopF fuel rest cm' rcm' (insertWalk t b codeStr.length ch)

/-- The `getline` loop run to completion: each iteration consumes at least
one input character, so a step bound of `input.length + 1` always covers the
whole run (the bound is never hit). -/
def reconLoop (input : List Char) (cm : List (Char × List Char))
    (rcm : List (List Char × Char)) (t : CNode) :
    Except Unit (List (Char × List Char) × List (List Char × Char) × CNode × List Char) :=
  reconLoopF (input.length + 1) input cm rcm t

/-- Model of `HuffmanTree::reconstructTree`, started on the fresh local
`root = new CountNode()` with cleared maps.  (The local `root` shadows the
member `root`, so the reconstructed tree is local to the call; the decoder
only ever consults `reverseCodeMap`.) -/
def reconstructTree (input : List Char) :
    Except Unit (List (Char × List Char) × List (List Char × Char) × CNode × List Char) :=
  reconLoop input [] [] (.count 0 .empty .empty)

/-- The payload loop of `HuffmanTree::decode`: formatted extraction
`input >> ch` skips whitespace and fails at end of stream; each extracted
character is appended to the accumulated candidate `binary`, and when the
accumulated string is a key of `reverseCodeMap` the mapped symbol is emitted
and the accumulator reset. -/
def decodePayloadF (rcm : List (List Char × Char)) :
    Nat → List Char → List Char → List Char
  | 0, _, _ => []
  | fuel + 1, s, acc =>
    match s.dropWhile isWS with
    | [] => []
    | c :: r =>
      let acc' := acc ++ [c]
      match alGet rcm acc' with
      | some sym => sym :: decodePayloadF rcm fuel r []
      | none => decodePayloadF rcm fuel r acc'

/-- The payload loop run to completion: each iteration consumes at least one
character, so a step bound of `s.length + 1` covers the whole run (the bound
is never hit). -/
def decodePayload (rcm : List (List Char × Char)) (s : List Char) (acc : List Char) :
    List Char :=
  decodePayloadF rcm (s.length + 1) s acc

/-- The full contents of the `_decoded.txt` output of `HuffmanTree::decode`
on an input file: reconstruct the table (an uncaught `stoi` exception kills
the run, modelled as `Except.error`, in which case no decoded output is
produced), then stream the rest of the file through `decodePayload`. -/
def decode (input : List Char) : Except Unit (List Char) :=
  match reconstructTree input with
  | .error _ => .error ()
  | .ok (_, rcm, _, rest) => .ok (decodePayload rcm rest [])

/-! ## Auxiliary definitions used to state and prove the properties

Everything below is *about* the embedding above: characterizations of the
traversal, reference models written from the spec's wording (for the
refinement-style claims), and concrete inputs. -/

/-- The (letter, code) pairs recorded by `traverseForCodeMap`, in recording
order: a `CountNode` contributes its left subtree's pairs (codes extended by
`'0'`) then its right subtree's (extended by `'1'`); a `HuffmanTreeNode`
contributes its own letter with the accumulated code. -/
def recs : CNode → List Char → List (Char × List Char)
  | .empty, _ => []
  | .count _ l r, bits => recs l (bits ++ ['0']) ++ recs r (bits ++ ['1'])
  | .huff ch _ _ _, bits => [(ch, bits)]

/-- All letters carried by the trees of a heap, in heap order. -/
def heapLetters (h : List CNode) : List Char :=
  h.foldr (fun n acc => n.letters ++ acc) []

/-- Boolean prefix test on character lists. -/
def isPreB : List Char → List Char → Bool
  | [], _ => true
  | _ :: _, [] => false
  | a :: as, b :: bs => a = b && isPreB as bs

/-- Well-formedness asserted by claim C6 for internal nodes: every
`CountNode` has both children present and a count equal to the sum of its
children's counts (leaves are unconstrained). -/
def wfInternal : CNode → Bool
  | .empty => true
  | .huff _ _ _ _ => true
  | .count n l r =>
    !(l = CNode.empty) && !(r = CNode.empty) && (n = l.wt + r.wt) && wfInternal l && wfInternal r

/-- A root-to-leaf insertion directed by an explicit list of steps
(`true` = right, `false` = left), creating missing intermediate `CountNode`s
lazily and reusing existing nodes; the final step's position receives a new
`HuffmanTreeNode` holding the symbol (replacing anything there).  This is
the common skeleton of the claimed and the actual reconstruction walk; the
two differ only in which step list they use. -/
def pathInsert : CNode → List Bool → Char → CNode
  | t, [], _ => t
  | t, [d], ch => setChild t d (.huff ch 0 .empty .empty)
  | t, d :: d2 :: ds, ch =>
    let c0 := childOf t d
    let c1 := if c0 = .empty then .count 0 .empty .empty else c0
    setChild t d (pathInsert c1 (d2 :: ds) ch)

/-- The successive least-significant binary digits of an integer (two's
complement: `emod 2` / `fdiv 2`), `n` of them.  These are the steps the
reconstruction walk actually takes for a code with `stoi` value `v` and
length `n`. -/
def lsbSteps (v : Int) : Nat → List Bool
  | 0 => []
  | n + 1 => (Int.emod v 2 = 1) :: lsbSteps (Int.fdiv v 2) n

/-- Modelled from the spec: claim C3's reading of the reconstruction — the
code string is followed character by character *in order*, `'0'` selecting
the left child and `'1'` the right child, with the final character's
position receiving the new leaf.  (Reference model for the refinement
comparison; the source walk is `insertWalk`.) -/
def claimedInsert (t : CNode) (code : List Char) (ch : Char) : CNode :=
  pathInsert t (code.map (fun c => c = '1')) ch

/-- The table section parsed into (symbol, code) records together with the
stream left over after the blank terminator line, mirroring exactly the
line-splitting behaviour of the `getline` loop (records end at an empty
line or end of input). -/
def parseRecordsF : Nat → List Char → List (Char × List Char) × List Char
  | 0, _ => ([], [])
  | fuel + 1, input =>
    match splitLine input with
    | none => ([], [])
    | some ([], rest) => ([], rest)
    | some (ch :: codeStr, rest) =>
      let p := parseRecordsF fuel rest
      ((ch, codeStr) :: p.1, p.2)

/-- The table section parsed to completion (each line consumes at least one
character, so the bound is never hit). -/
def parseRecords (input : List Char) : List (Char × List Char) × List Char :=
  parseRecordsF (input.length + 1) input

/-- Decoding computed from the parsed parts only (records and leftover
payload stream): build the reverse map from the records, validating each
with `stoi`, then run the payload loop.  No tree appears anywhere. -/
def decodeFromParts (records : List (Char × List Char)) (payload : List Char) :
    Except Unit (List Char) :=
  match records.foldlM
      (fun rcm p =>
        match stoi p.2 with
        | .error _ => Except.error ()
        | .ok _ => Except.ok (alSet rcm p.2 p.1))
      ([] : List (List Char × Char)) with
  | .error _ => .error ()
  | .ok rcm => .ok (decodePayload rcm payload [])

/-- The payload loop with no whitespace handling at all: every character of
the stream enters the accumulated candidate code.  (Reference model for
claim C10; the source loop is `decodePayload`, which skips whitespace the
way `input >> ch` does.) -/
def decodePayloadNoWS (rcm : List (List Char × Char)) :
    List Char → List Char → List Char
  | [], _ => []
  | c :: r, acc =>
    let acc' := acc ++ [c]
    match alGet rcm acc' with
    | some sym => sym :: decodePayloadNoWS rcm r []
    | none => decodePayloadNoWS rcm r acc'

/-- One iteration of the merge loop as a heap transformer: pop the two
lowest nodes, push their merge (identity on heaps of fewer than two
nodes). -/
def heapStep : List CNode → List CNode
  | a :: b :: r => heapPush (.count (a.wt + b.wt) b a) r
  | h => h

/-- The heap after `n` iterations of the merge loop. -/
def heapAtN (h : List CNode) : Nat → List CNode
  | 0 => h
  | n + 1 => heapStep (heapAtN h n)

/-- The node value `u` is one of the two nodes the merge loop pops at step
`k` of the run starting from heap `h`. -/
def PoppedAt (h : List CNode) (k : Nat) (u : CNode) : Prop :=
  ∃ x y rr, heapAtN h k = x :: y :: rr ∧ (u = x ∨ u = y)

/-- The node value `P` is the merged `CountNode` the merge loop creates at
step `k` of the run starting from heap `h`. -/
def CreatedAt (h : List CNode) (k : Nat) (P : CNode) : Prop :=
  ∃ x y rr, heapAtN h k = x :: y :: rr ∧ P = .count (x.wt + y.wt) y x

/-- The subtree reached from a node by a list of steps (`true` = right);
only `CountNode`s are descended. -/
def subAt : CNode → List Bool → CNode
  | t, [] => t
  | .count _ l r, d :: p => subAt (if d then r else l) p
  | _, _ :: _ => .empty

/-- The heap ordered by weight (the sorted-list representation of the
min-heap). -/
def wtSorted (h : List CNode) : Prop :=
  h.Pairwise (fun a b => a.wt ≤ b.wt)

/-- The standing well-formedness of a heap during the run: weight-sorted,
no letter in two trees, and no tree without letters. -/
structure GoodHeap (h : List CNode) : Prop where
  sorted : wtSorted h
  nodup : (heapLetters h).Nodup
  nonnil : ∀ t ∈ h, t.letters ≠ []

/-- Concrete input: `'a'` once, `'b'` twice, ..., `'l'` 2048 times
(4095 characters, frequencies the powers of two).  All node weights during
tree construction are pairwise distinct, so the resulting tree — a spine
with leaf `'a'` at depth 11 — is forced for every legal tie-breaking of the
priority queue.  The code of `'a'` is `"11111111111"`, whose decimal `stoi`
value 11111111111 exceeds `INT_MAX`. -/
def sPow2 : List Char :=
  List.replicate 1 'a' ++ List.replicate 2 'b' ++ List.replicate 4 'c' ++
  List.replicate 8 'd' ++ List.replicate 16 'e' ++ List.replicate 32 'f' ++
  List.replicate 64 'g' ++ List.replicate 128 'h' ++ List.replicate 256 'i' ++
  List.replicate 512 'j' ++ List.replicate 1024 'k' ++ List.replicate 2048 'l'

/-! ## Basic lemmas about the containers and loop models -/

theorem length_heapPush (n : CNode) (l : List CNode) :
    (heapPush n l).length = l.length + 1 := by
  induction l with
  | nil => rfl
  | cons h t ih => simp only [heapPush]; split <;> simp [ih]

theorem mergeLoop_cons₂ (a b : CNode) (r : List CNode) :
    mergeLoop (a :: b :: r) = mergeLoop (heapPush (.count (a.wt + b.wt) b a) r) := by
  show mergeLoopF (r.length + 2) (a :: b :: r) = _
  rw [mergeLoopF, mergeLoop, length_heapPush]

theorem length_dropWhile_le' {α : Type} (p : α → Bool) (l : List α) :
    (l.dropWhile p).length ≤ l.length := by
  induction l with
  | nil => simp
  | cons h t ih =>
    by_cases hp : p h
    · rw [List.dropWhile_cons_of_pos hp]; simp only [List.length_cons]; omega
    · rw [List.dropWhile_cons_of_neg (by simpa using hp)]

theorem splitLine_rest_lt {s line rest : List Char}
    (h : splitLine s = some (line, rest)) : rest.length < s.length := by
  match s with
  | [] => simp [splitLine] at h
  | c :: t =>
    simp only [splitLine, Option.some.injEq, Prod.mk.injEq] at h
    have hdw : ((c :: t).dropWhile (fun c => c != '\n')).length ≤ (c :: t).length :=
      length_dropWhile_le' _ _
    rcases h with ⟨_, h2⟩
    rcases hd : (c :: t).dropWhile (fun c => c != '\n') with _ | ⟨d, ds⟩
    · rw [hd] at h2
      simp only [List.drop_nil] at h2
      subst h2
      simp
    · rw [hd] at h2
      rw [hd] at hdw
      simp only [List.drop_one, List.tail_cons] at h2
      subst h2
      simp only [List.length_cons] at hdw ⊢
      omega

theorem alGet_alSet_self {α β : Type} [DecidableEq α] (m : List (α × β)) (a : α) (b : β) :
    alGet (alSet m a b) a = some b := by
  induction m with
  | nil => simp [alSet, alGet]
  | cons p t ih =>
    obtain ⟨k, v⟩ := p
    by_cases h : k = a
    · simp [alSet, alGet, h]
    · simp [alSet, alGet, h, ih]

theorem alGet_alSet_ne {α β : Type} [DecidableEq α] (m : List (α × β)) {a k : α} (b : β)
    (h : k ≠ a) : alGet (alSet m a b) k = alGet m k := by
  induction m with
  | nil => simp [alSet, alGet, Ne.symm h]
  | cons p t ih =>
    obtain ⟨k', v⟩ := p
    by_cases h' : k' = a
    · subst h'
      simp [alSet, alGet, Ne.symm h]
    · by_cases h2 : k' = k
      · subst h2
        simp [alSet, alGet, h']
      · simp [alSet, alGet, h', h2, ih]

theorem keys_alSet_of_mem {α β : Type} [DecidableEq α] {m : List (α × β)} {a : α} (b : β)
    (h : a ∈ m.map Prod.fst) : (alSet m a b).map Prod.fst = m.map Prod.fst := by
  induction m with
  | nil => simp at h
  | cons p t ih =>
    obtain ⟨k, v⟩ := p
    by_cases hk : k = a
    · simp [alSet, hk]
    · simp only [List.map_cons, List.mem_cons] at h
      rcases h with h | h

      · exact absurd h.symm hk
      · simp [alSet, hk, ih h]

theorem keys_alSet_of_not_mem {α β : Type} [DecidableEq α] {m : List (α × β)} {a : α} (b : β)
    (h : a ∉ m.map Prod.fst) : (alSet m a b).map Prod.fst = m.map Prod.fst ++ [a] := by
  induction m with
  | nil => simp [alSet]
  | cons p t ih =>
    obtain ⟨k, v⟩ := p
    simp only [List.map_cons, List.mem_cons] at h
    push_neg at h
    simp [alSet, Ne.symm h.1, ih h.2]

theorem alGet_eq_none_iff {α β : Type} [DecidableEq α] (m : List (α × β)) (a : α) :
    alGet m a = none ↔ a ∉ m.map Prod.fst := by
  induction m with
  | nil => simp [alGet]
  | cons p t ih =>
    obtain ⟨k, v⟩ := p
    by_cases h : k = a
    · simp [alGet, h]
    · simp [alGet, h, ih, Ne.symm h]

theorem alGet_of_mem_nodup {α β : Type} [DecidableEq α] {m : List (α × β)} {a : α} {b : β}
    (hnd : (m.map Prod.fst).Nodup) (h : (a, b) ∈ m) : alGet m a = some b := by
  induction m with
  | nil => simp at h
  | cons p t ih =>
    obtain ⟨k, v⟩ := p
    simp only [List.map_cons, List.nodup_cons] at hnd
    rcases List.mem_cons.mp h with h | h
    · injection h with h1 h2
      subst h1
      subst h2
      simp [alGet]
    · have hk : k ≠ a := by
        intro hka
        subst hka
        exact hnd.1 (List.mem_map.mpr ⟨(k, b), h, rfl⟩)
      simp [alGet, hk, ih hnd.2 h]

theorem alSet_not_mem_eq_append {α β : Type} [DecidableEq α] {m : List (α × β)} {a : α}
    (b : β) (hk : a ∉ m.map Prod.fst) : alSet m a b = m ++ [(a, b)] := by
  induction m with
  | nil => simp [alSet]
  | cons q s ihm =>
    obtain ⟨k', v'⟩ := q
    simp only [List.map_cons, List.mem_cons] at hk
    push_neg at hk
    simp [alSet, Ne.symm hk.1, ihm hk.2]

theorem foldl_alSet_of_nodup {α β : Type} [DecidableEq α] :
    ∀ (rs m : List (α × β)), ((m ++ rs).map Prod.fst).Nodup →
      rs.foldl (fun acc p => alSet acc p.1 p.2) m = m ++ rs := by
  intro rs
  induction rs with
  | nil => intro m _; simp
  | cons p t ih =>
    intro m hnd
    obtain ⟨k, v⟩ := p
    have hk : k ∉ m.map Prod.fst := by
      simp only [List.map_append, List.nodup_append] at hnd
      intro hmem
      exact hnd.2.2 hmem (by simp)
    simp only [List.foldl_cons, alSet_not_mem_eq_append v hk]
    rw [ih (m ++ [(k, v)]) (by simpa using hnd)]
    simp

theorem decodePayloadF_congr (rcm : List (List Char × Char)) :
    ∀ (n : Nat) (s acc : List Char) (f : Nat), s.length ≤ n → s.length < f →
      decodePayloadF rcm f s acc = decodePayload rcm s acc := by
  intro n
  induction n with
  | zero =>
    intro s acc f hn hf
    have : s = [] := List.length_eq_zero.mp (Nat.le_zero.mp hn)
    subst this
    obtain ⟨f', rfl⟩ := Nat.exists_eq_succ_of_ne_zero (Nat.pos_iff_ne_zero.mp hf)
    simp [decodePayload, decodePayloadF]
  | succ n ih =>
    intro s acc f hn hf
    obtain ⟨f', rfl⟩ : ∃ f', f = f' + 1 := ⟨f - 1, by omega⟩
    rw [decodePayload]
    rcases hdw : s.dropWhile isWS with _ | ⟨c, r⟩
    · rw [decodePayloadF, decodePayloadF]
      rw [hdw]
    · have hr : r.length < s.length := by
        have := length_dropWhile_le' isWS s
        rw [hdw] at this
        simp only [List.length_cons] at this
        omega
      rw [decodePayloadF, decodePayloadF]
      rw [hdw]
      simp only []
      rcases halg : alGet rcm (acc ++ [c]) with _ | sym
      · simp only []
        rw [ih r (acc ++ [c]) f' (by omega) (by omega),
            ih r (acc ++ [c]) s.length (by omega) (by omega)]
      · simp only []
        rw [ih r [] f' (by omega) (by omega), ih r [] s.length (by omega) (by omega)]

theorem takeWhile_all_append_stop {α : Type} {p : α → Bool} :
    ∀ {l1 : List α} {a : α} (l2 : List α), (∀ x ∈ l1, p x = true) → p a = false →
      List.takeWhile p (l1 ++ a :: l2) = l1 := by
  intro l1
  induction l1 with
  | nil =>
    intro a l2 _ ha
    simp [List.takeWhile_cons, ha]
  | cons x xs ih =>
    intro a l2 hall ha
    have hx : p x = true := hall x (by simp)
    simp only [List.cons_append, List.takeWhile_cons, hx]
    simp [ih l2 (fun y hy => hall y (by simp [hy])) ha]

theorem dropWhile_all_append_stop {α : Type} {p : α → Bool} :
    ∀ {l1 : List α} {a : α} (l2 : List α), (∀ x ∈ l1, p x = true) → p a = false →
      List.dropWhile p (l1 ++ a :: l2) = a :: l2 := by
  intro l1
  induction l1 with
  | nil =>
    intro a l2 _ ha
    simp [List.dropWhile_cons, ha]
  | cons x xs ih =>
    intro a l2 hall ha
    have hx : p x = true := hall x (by simp)
    simp only [List.cons_append, List.dropWhile_cons, hx]
    simp [ih l2 (fun y hy => hall y (by simp [hy])) ha]

theorem splitLine_newline (rest : List Char) :
    splitLine ('\n' :: rest) = some ([], rest) := rfl

theorem splitLine_record {c : Char} {b rest : List Char} (hc : c ≠ '\n')
    (hb : ∀ x ∈ b, x ≠ '\n') :
    splitLine (c :: (b ++ '\n' :: rest)) = some (c :: b, rest) := by
  have hmk : ∀ x ∈ c :: b, (x != '\n') = true := by
    intro x hx
    rcases List.mem_cons.mp hx with rfl | hx
    · simpa using hc
    · simpa using hb x hx
  have hnl : (('\n' : Char) != '\n') = false := by simp
  have h1 : List.takeWhile (fun x => x != '\n') ((c :: b) ++ '\n' :: rest) = c :: b :=
    takeWhile_all_append_stop rest hmk hnl
  have h2 : List.dropWhile (fun x => x != '\n') ((c :: b) ++ '\n' :: rest) = '\n' :: rest :=
    dropWhile_all_append_stop rest hmk hnl
  simp only [List.cons_append] at h1 h2
  simp [splitLine, h1, h2]

theorem reconLoopF_congr :
    ∀ (n : Nat) (input : List Char) (cm : List (Char × List Char))
      (rcm : List (List Char × Char)) (t : CNode) (f : Nat),
      input.length ≤ n → input.length < f →
      reconLoopF f input cm rcm t = reconLoop input cm rcm t := by
  intro n
  induction n with
  | zero =>
    intro input cm rcm t f hn hf
    have : input = [] := List.length_eq_zero.mp (Nat.le_zero.mp hn)
    subst this
    obtain ⟨f', rfl⟩ : ∃ f', f = f' + 1 := ⟨f - 1, by omega⟩
    simp [reconLoop, reconLoopF, splitLine]
  | succ n ih =>
    intro input cm rcm t f hn hf
    obtain ⟨f', rfl⟩ : ∃ f', f = f' + 1 := ⟨f - 1, by omega⟩
    rw [reconLoop]
    rcases hsl : splitLine input with _ | ⟨line, rest⟩
    · rw [reconLoopF, reconLoopF]
      rw [hsl]
    · have hr : rest.length < input.length := splitLine_rest_lt hsl
      rw [reconLoopF, reconLoopF]
      rw [hsl]
      rcases line with _ | ⟨ch, codeStr⟩
      · simp only []
      · simp only []
        rcases hst : stoi codeStr with _ | b
        · simp only []
        · simp only []
          rw [ih rest _ _ _ f' (by omega) (by omega),
              ih rest _ _ _ input.length (by omega) (by omega)]

theorem parseRecordsF_congr :
    ∀ (n : Nat) (input : List Char) (f : Nat),
      input.length ≤ n → input.length < f →
      parseRecordsF f input = parseRecords input := by
  intro n
  induction n with
  | zero =>
    intro input f hn hf
    have : input = [] := List.length_eq_zero.mp (Nat.le_zero.mp hn)
    subst this
    obtain ⟨f', rfl⟩ : ∃ f', f = f' + 1 := ⟨f - 1, by omega⟩
    simp [parseRecords, parseRecordsF, splitLine]
  | succ n ih =>
    intro input f hn hf
    obtain ⟨f', rfl⟩ : ∃ f', f = f' + 1 := ⟨f - 1, by omega⟩
    rw [parseRecords]
    rcases hsl : splitLine input with _ | ⟨line, rest⟩
    · rw [parseRecordsF, parseRecordsF]
      rw [hsl]
    · have hr : rest.length < input.length := splitLine_rest_lt hsl
      rw [parseRecordsF, parseRecordsF]
      rw [hsl]
      rcases line with _ | ⟨ch, codeStr⟩
      · simp only []
      · simp only []
        rw [ih rest f' (by omega) (by omega),
            ih rest input.length (by omega) (by omega)]

/-! ## Processing a well-formed table section -/

theorem foldDigits_bound :
    ∀ (l : List Char) (acc : Nat), (∀ x ∈ l, x = '0' ∨ x = '1') →
      9 * l.foldl (fun a c => a * 10 + (c.toNat - '0'.toNat)) acc + 1 ≤
        (9 * acc + 1) * 10 ^ l.length := by
  intro l
  induction l with
  | nil => intro acc _; simp
  | cons c cs ih =>
    intro acc hd
    have hc : c.toNat - '0'.toNat ≤ 1 := by
      rcases hd c (by simp) with rfl | rfl <;> simp
    have step : 9 * (acc * 10 + (c.toNat - '0'.toNat)) + 1 ≤ (9 * acc + 1) * 10 := by omega
    calc 9 * (c :: cs).foldl (fun a c => a * 10 + (c.toNat - '0'.toNat)) acc + 1
        = 9 * cs.foldl (fun a c => a * 10 + (c.toNat - '0'.toNat))
            (acc * 10 + (c.toNat - '0'.toNat)) + 1 := by simp
      _ ≤ (9 * (acc * 10 + (c.toNat - '0'.toNat)) + 1) * 10 ^ cs.length :=
          ih _ (fun x hx => hd x (by simp [hx]))
      _ ≤ ((9 * acc + 1) * 10) * 10 ^ cs.length :=
          Nat.mul_le_mul_right _ step
      _ = (9 * acc + 1) * 10 ^ (c :: cs).length := by
          rw [List.length_cons, pow_succ]
          ring

theorem takeWhile_eq_self_of_all {α : Type} {p : α → Bool} :
    ∀ {l : List α}, (∀ x ∈ l, p x = true) → List.takeWhile p l = l := by
  intro l
  induction l with
  | nil => intro _; rfl
  | cons x xs ih =>
    intro h
    rw [List.takeWhile_cons_of_pos (h x (by simp))]
    rw [ih (fun y hy => h y (by simp [hy]))]

/-- On a nonempty all-digit 0/1 string of at most ten digits, stoi succeeds
(the value is at most 1111111111, inside the int range). -/
theorem stoi_digits {b : List Char} (hne : b ≠ []) (hd : ∀ x ∈ b, x = '0' ∨ x = '1')
    (hlen : b.length ≤ 10) : ∃ v : Int, stoi b = .ok v ∧ 0 ≤ v := by
  obtain ⟨x, xs, rfl⟩ : ∃ x xs, b = x :: xs := by
    cases b with
    | nil => exact absurd rfl hne
    | cons x xs => exact ⟨x, xs, rfl⟩
  have hdig : ∀ y ∈ x :: xs, isDig y = true := by
    intro y hy
    rcases hd y hy with rfl | rfl <;> decide
  have hval : 9 * (x :: xs).foldl (fun a c => a * 10 + (c.toNat - '0'.toNat)) 0 + 1 ≤
      10 ^ (x :: xs).length := by
    have := foldDigits_bound (x :: xs) 0 hd
    simpa using this
  have hbound : (x :: xs).foldl (fun a c => a * 10 + (c.toNat - '0'.toNat)) 0 ≤ 1111111111 := by
    have hp : (10 : Nat) ^ (x :: xs).length ≤ 10 ^ 10 :=
      Nat.pow_le_pow_right (by norm_num) hlen
    have : (10 : Nat) ^ 10 = 10000000000 := by norm_num
    omega
  have hx0 : ¬ isWS x = true := by
    rcases hd x (by simp) with rfl | rfl <;> decide
  have hxm : ¬ ((x :: xs).head? = some '-' ∨ (x :: xs).head? = some '+') := by
    rcases hd x (by simp) with rfl | rfl <;> simp
  refine ⟨((x :: xs).foldl (fun a c => a * 10 + (c.toNat - '0'.toNat)) 0 : Nat), ?_, by positivity⟩
  rw [stoi]
  simp only [List.dropWhile_cons_of_neg hx0, if_neg (fun h => hxm (Or.inl h)), if_neg hxm]
  rw [takeWhile_eq_self_of_all hdig]
  rw [if_neg (by simp : ¬ (x :: xs = []))]
  rw [if_neg]
  · rw [one_mul]
  · push_cast
    simp only [show '0'.toNat = 48 from rfl] at hbound
    omega

theorem reconLoop_blank (rest : List Char) (cm : List (Char × List Char))
    (rcm : List (List Char × Char)) (t : CNode) :
    reconLoop ('\n' :: rest) cm rcm t = .ok (cm, rcm, t, rest) := by
  rw [reconLoop, reconLoopF]
  rw [splitLine_newline]

theorem reconLoop_step_record {c : Char} {b rest' : List Char} {v : Int}
    (cm : List (Char × List Char)) (rcm : List (List Char × Char)) (t : CNode)
    (hc : c ≠ '\n') (hb : ∀ x ∈ b, x ≠ '\n') (hst : stoi b = .ok v) :
    reconLoop (c :: (b ++ '\n' :: rest')) cm rcm t =
      reconLoop rest' (alSet cm c b) (alSet rcm b c) (insertWalk t v b.length c) := by
  rw [reconLoop, reconLoopF]
  rw [splitLine_record hc hb]
  simp only [hst]
  exact reconLoopF_congr rest'.length rest' _ _ _ _ (le_refl _)
    (by simp [List.length_append]; omega)

theorem reconLoop_step_error {c : Char} {b rest' : List Char}
    (cm : List (Char × List Char)) (rcm : List (List Char × Char)) (t : CNode)
    (hc : c ≠ '\n') (hb : ∀ x ∈ b, x ≠ '\n') (hst : stoi b = .error ()) :
    reconLoop (c :: (b ++ '\n' :: rest')) cm rcm t = .error () := by
  rw [reconLoop, reconLoopF]
  rw [splitLine_record hc hb]
  simp only [hst]

/-- Processing a whole well-formed table section: each record's symbol is
recorded in the code map, its code in the reverse map (in record order), and
the loop stops at the blank line, handing the remaining stream back for the
payload phase.  The resulting tree is irrelevant to the decoder and left
existential. -/
theorem reconLoop_table :
    ∀ (R : List (Char × List Char)) (rest : List Char) (cm : List (Char × List Char))
      (rcm : List (List Char × Char)) (t : CNode),
      (∀ p ∈ R, p.1 ≠ '\n' ∧ p.2 ≠ [] ∧ (∀ x ∈ p.2, x = '0' ∨ x = '1') ∧ p.2.length ≤ 10) →
      ∃ t', reconLoop ((R.flatMap (fun p => p.1 :: p.2 ++ ['\n'])) ++ '\n' :: rest) cm rcm t
        = .ok (R.foldl (fun m p => alSet m p.1 p.2) cm,
               R.foldl (fun m p => alSet m p.2 p.1) rcm, t', rest) := by
  intro R
  induction R with
  | nil =>
    intro rest cm rcm t _
    exact ⟨t, by simpa using reconLoop_blank rest cm rcm t⟩
  | cons p R' ih =>
    intro rest cm rcm t hR
    obtain ⟨c, b⟩ := p
    obtain ⟨hc, hne, hd, hlen⟩ := hR (c, b) (by simp)
    obtain ⟨v, hst, _⟩ := stoi_digits hne hd hlen
    have hb : ∀ x ∈ b, x ≠ '\n' := by
      intro x hx
      rcases hd x hx with rfl | rfl <;> decide
    have heq : ((c, b) :: R').flatMap (fun p => p.1 :: p.2 ++ ['\n']) ++ '\n' :: rest =
        c :: (b ++ '\n' :: (R'.flatMap (fun p => p.1 :: p.2 ++ ['\n']) ++ '\n' :: rest)) := by
      simp
    rw [heq, reconLoop_step_record cm rcm t hc hb hst]
    obtain ⟨t', ht'⟩ := ih rest (alSet cm c b) (alSet rcm b c)
      (insertWalk t v b.length c) (fun q hq => hR q (by simp [hq]))
    exact ⟨t', by simpa using ht'⟩

/-! ## The code table derived from a tree -/

theorem traverseForCodeMap_eq_foldl (t : CNode) :
    ∀ (bits : List Char) (m : List (Char × List Char)),
      traverseForCodeMap t bits m = (recs t bits).foldl (fun m p => alSet m p.1 p.2) m := by
  induction t with
  | empty => intro bits m; rfl
  | count n l r ihl ihr =>
    intro bits m
    rw [traverseForCodeMap, recs, List.foldl_append]
    rw [ihl, ihr]
  | huff ch n l r _ _ =>
    intro bits m
    rfl

theorem recs_map_fst (t : CNode) : ∀ bits, (recs t bits).map Prod.fst = t.letters := by
  induction t with
  | empty => intro bits; rfl
  | count n l r ihl ihr =>
    intro bits
    rw [recs, CNode.letters, List.map_append, ihl, ihr]
  | huff ch n l r _ _ => intro bits; rfl

theorem recs_code_extends (t : CNode) :
    ∀ bits p, p ∈ recs t bits → ∃ u, p.2 = bits ++ u := by
  induction t with
  | empty => intro bits p hp; simp [recs] at hp
  | count n l r ihl ihr =>
    intro bits p hp
    rw [recs] at hp
    rcases List.mem_append.mp hp with hp | hp
    · obtain ⟨u, hu⟩ := ihl _ p hp
      exact ⟨'0' :: u, by simpa using hu⟩
    · obtain ⟨u, hu⟩ := ihr _ p hp
      exact ⟨'1' :: u, by simpa using hu⟩
  | huff ch n l r _ _ =>
    intro bits p hp
    rw [recs, List.mem_singleton] at hp
    exact ⟨[], by simp [hp]⟩

theorem recs_code_digits (t : CNode) :
    ∀ bits, (∀ x ∈ bits, x = '0' ∨ x = '1') →
      ∀ p ∈ recs t bits, ∀ x ∈ p.2, x = '0' ∨ x = '1' := by
  induction t with
  | empty => intro bits _ p hp; simp [recs] at hp
  | count n l r ihl ihr =>
    intro bits hb p hp
    rw [recs] at hp
    have hb0 : ∀ x ∈ bits ++ ['0'], x = '0' ∨ x = '1' := by
      intro x hx
      rcases List.mem_append.mp hx with hx | hx
      · exact hb x hx
      · exact Or.inl (by simpa using hx)
    have hb1 : ∀ x ∈ bits ++ ['1'], x = '0' ∨ x = '1' := by
      intro x hx
      rcases List.mem_append.mp hx with hx | hx
      · exact hb x hx
      · exact Or.inr (by simpa using hx)
    rcases List.mem_append.mp hp with hp | hp
    · exact ihl _ hb0 p hp
    · exact ihr _ hb1 p hp
  | huff ch n l r _ _ =>
    intro bits hb p hp
    rw [recs, List.mem_singleton] at hp
    subst hp
    exact hb

theorem not_pre_of_diverging {α : Type} {a b : α} (hab : a ≠ b) (pre u1 u2 : List α) :
    ¬ ∃ w, pre ++ b :: u2 = (pre ++ a :: u1) ++ w := by
  rintro ⟨w, hw⟩
  rw [List.append_assoc] at hw
  have := List.append_cancel_left hw
  simp only [List.cons_append, List.cons.injEq] at this
  exact hab this.1.symm

theorem recs_pairwise_not_pre (t : CNode) :
    ∀ bits, (recs t bits).Pairwise
      (fun p q => ¬ (∃ w, q.2 = p.2 ++ w) ∧ ¬ (∃ w, p.2 = q.2 ++ w)) := by
  induction t with
  | empty => intro bits; simp [recs]
  | count n l r ihl ihr =>
    intro bits
    rw [recs, List.pairwise_append]
    refine ⟨ihl _, ihr _, ?_⟩
    intro p hp q hq
    obtain ⟨u1, hu1⟩ := recs_code_extends l _ p hp
    obtain ⟨u2, hu2⟩ := recs_code_extends r _ q hq
    rw [List.append_assoc] at hu1 hu2
    simp only [List.singleton_append] at hu1 hu2
    constructor
    · rw [hu1, hu2]
      exact not_pre_of_diverging (by decide) bits u1 u2
    · rw [hu1, hu2]
      exact not_pre_of_diverging (by decide) bits u2 u1
  | huff ch n l r _ _ => intro bits; simp [recs]

theorem recs_code_ne_nil_of_count (n : Nat) (l r : CNode) :
    ∀ p ∈ recs (.count n l r) [], p.2 ≠ [] := by
  intro p hp
  rw [recs] at hp
  rcases List.mem_append.mp hp with hp | hp
  · obtain ⟨u, hu⟩ := recs_code_extends l _ p hp
    simp [hu]
  · obtain ⟨u, hu⟩ := recs_code_extends r _ p hp
    simp [hu]

/-! ## The heap and the built tree -/

theorem heapPush_perm (n : CNode) (h : List CNode) : (heapPush n h).Perm (n :: h) := by
  induction h with
  | nil => simp [heapPush]
  | cons x t ih =>
    rw [heapPush]
    split
    · exact (ih.cons x).trans (List.Perm.swap n x t)
    · exact List.Perm.refl _

theorem heapLetters_cons (x : CNode) (h : List CNode) :
    heapLetters (x :: h) = x.letters ++ heapLetters h := rfl

theorem heapLetters_perm_of_perm {h1 h2 : List CNode} (hp : h1.Perm h2) :
    (heapLetters h1).Perm (heapLetters h2) := by
  induction hp with
  | nil => simp [heapLetters]
  | cons x _ ih => simpa [heapLetters_cons] using ih.append_left _
  | swap x y t =>
    simp only [heapLetters_cons]
    rw [← List.append_assoc, ← List.append_assoc]
    exact (List.perm_append_comm.append_right _)
  | trans _ _ ih1 ih2 => exact ih1.trans ih2

theorem heapLetters_heapPush (n : CNode) (h : List CNode) :
    (heapLetters (heapPush n h)).Perm (n.letters ++ heapLetters h) := by
  simpa [heapLetters_cons] using heapLetters_perm_of_perm (heapPush_perm n h)

theorem mergeLoop_letters :
    ∀ (k : Nat) (h : List CNode), h.length ≤ k → h ≠ [] →
      ((mergeLoop h).letters).Perm (heapLetters h) := by
  intro k
  induction k with
  | zero =>
    intro h hk hne
    exact absurd (List.length_eq_zero.mp (Nat.le_zero.mp hk)) hne
  | succ k ih =>
    intro h hk hne
    match h with
    | [] => exact absurd rfl hne
    | [t] =>
      show (mergeLoopF 1 [t]).letters.Perm _
      rw [mergeLoopF]
      simp [heapLetters]
    | a :: b :: r =>
      rw [mergeLoop_cons₂]
      have hlen : (heapPush (CNode.count (a.wt + b.wt) b a) r).length ≤ k := by
        rw [length_heapPush]
        simp only [List.length_cons] at hk
        omega
      have hne' : heapPush (CNode.count (a.wt + b.wt) b a) r ≠ [] := by
        intro hh
        have := length_heapPush (CNode.count (a.wt + b.wt) b a) r
        rw [hh] at this
        simp at this
      refine (ih _ hlen hne').trans ?_
      refine (heapLetters_heapPush _ _).trans ?_
      show (CNode.letters b ++ CNode.letters a ++ heapLetters r).Perm _
      rw [heapLetters_cons, heapLetters_cons]
      calc (CNode.letters b ++ CNode.letters a ++ heapLetters r).Perm
            (CNode.letters a ++ CNode.letters b ++ heapLetters r) :=
          List.perm_append_comm.append_right _
        _ = CNode.letters a ++ (CNode.letters b ++ heapLetters r) := by
          rw [List.append_assoc]

theorem buildTree_letters {h : List CNode} {t : CNode} (hb : buildTree h = some t) :
    (t.letters).Perm (heapLetters h) := by
  match h with
  | [] => simp [buildTree] at hb
  | [n1] =>
    rw [buildTree] at hb
    simp only [Option.some.injEq] at hb
    subst hb
    show (mergeLoopF 1 [CNode.count n1.wt .empty n1]).letters.Perm _
    rw [mergeLoopF]
    simp [CNode.letters, heapLetters]
  | n1 :: n2 :: rest2 =>
    rw [buildTree] at hb
    simp only [Option.some.injEq] at hb
    subst hb
    have hne : heapPush (CNode.count (n1.wt + n2.wt) n2 n1) rest2 ≠ [] := by
      intro hh
      have := length_heapPush (CNode.count (n1.wt + n2.wt) n2 n1) rest2
      rw [hh] at this
      simp at this
    refine (mergeLoop_letters _ _ (le_refl _) hne).trans ?_
    refine (heapLetters_heapPush _ _).trans ?_
    show (CNode.letters n2 ++ CNode.letters n1 ++ heapLetters rest2).Perm _
    rw [heapLetters_cons, heapLetters_cons]
    calc (CNode.letters n2 ++ CNode.letters n1 ++ heapLetters rest2).Perm
          (CNode.letters n1 ++ CNode.letters n2 ++ heapLetters rest2) :=
        List.perm_append_comm.append_right _
      _ = CNode.letters n1 ++ (CNode.letters n2 ++ heapLetters rest2) := by
        rw [List.append_assoc]

theorem mergeLoop_isCount :
    ∀ (k : Nat) (h : List CNode), h.length ≤ k → 2 ≤ h.length →
      ∃ n l r, mergeLoop h = .count n l r := by
  intro k
  induction k with
  | zero => intro h hk h2; omega
  | succ k ih =>
    intro h hk h2
    match h with
    | [] => simp at h2
    | [a] => simp at h2
    | a :: b :: r =>
      rw [mergeLoop_cons₂]
      match hr : r with
      | [] =>
        show ∃ n l r, mergeLoopF _ _ = _
        rw [heapPush]
        exact ⟨a.wt + b.wt, b, a, rfl⟩
      | c :: r' =>
        subst hr
        refine ih _ ?_ ?_
        · rw [length_heapPush]
          simp only [List.length_cons] at hk ⊢
          omega
        · rw [length_heapPush]
          simp

theorem builtTree_isCount {s : List Char} {t : CNode} (hb : builtTreeOf s = some t) :
    ∃ n l r, t = .count n l r := by
  rw [builtTreeOf] at hb
  match hh : nodeHeapOf s with
  | [] => rw [hh] at hb; simp [buildTree] at hb
  | [n1] =>
    rw [hh] at hb
    rw [buildTree] at hb
    simp only [Option.some.injEq] at hb
    subst hb
    exact ⟨_, _, _, rfl⟩
  | n1 :: n2 :: rest2 =>
    rw [hh] at hb
    rw [buildTree] at hb
    simp only [Option.some.injEq] at hb
    subst hb
    match hr : rest2 with
    | [] =>
      show ∃ n l r, mergeLoop (heapPush _ []) = _
      rw [heapPush]
      show ∃ n l r, mergeLoopF 1 _ = _
      rw [mergeLoopF]
      exact ⟨_, _, _, rfl⟩
    | c :: r' =>
      refine mergeLoop_isCount (heapPush (CNode.count (n1.wt + n2.wt) n2 n1) (c :: r')).length
        _ (le_refl _) ?_
      rw [length_heapPush]
      simp

/-! ## The frequency table -/

theorem mem_keys_of_alGet_eq_some {α β : Type} [DecidableEq α] {m : List (α × β)} {a : α}
    {b : β} (h : alGet m a = some b) : a ∈ m.map Prod.fst := by
  by_contra hmem
  rw [← alGet_eq_none_iff] at hmem
  rw [h] at hmem
  exact Option.some_ne_none _ hmem

theorem keys_bumpCount (m : List (Char × Nat)) (c : Char) :
    (bumpCount m c).map Prod.fst =
      if c ∈ m.map Prod.fst then m.map Prod.fst else m.map Prod.fst ++ [c] := by
  rw [bumpCount]
  rcases hg : alGet m c with _ | n
  · rw [if_neg (by rwa [← alGet_eq_none_iff])]
    exact keys_alSet_of_not_mem _ (by rwa [← alGet_eq_none_iff])
  · rw [if_pos (mem_keys_of_alGet_eq_some hg)]
    exact keys_alSet_of_mem _ (mem_keys_of_alGet_eq_some hg)

theorem foldl_bumpCount_keys_nodup :
    ∀ (l : List Char) (m : List (Char × Nat)), (m.map Prod.fst).Nodup →
      ((l.foldl bumpCount m).map Prod.fst).Nodup := by
  intro l
  induction l with
  | nil => intro m h; exact h
  | cons c cs ih =>
    intro m h
    rw [List.foldl_cons]
    refine ih _ ?_
    rw [keys_bumpCount]
    split
    · exact h
    · rw [List.nodup_append]
      exact ⟨h, List.nodup_singleton c, by simpa using (by assumption : c ∉ m.map Prod.fst)⟩

theorem countCharFrequencies_keys_nodup (s : List Char) :
    ((countCharFrequencies s).map Prod.fst).Nodup :=
  foldl_bumpCount_keys_nodup s [] (by simp)

theorem mem_foldl_bumpCount_keys :
    ∀ (l : List Char) (m : List (Char × Nat)) (k : Char),
      k ∈ (l.foldl bumpCount m).map Prod.fst ↔ k ∈ m.map Prod.fst ∨ k ∈ l := by
  intro l
  induction l with
  | nil => intro m k; simp
  | cons c cs ih =>
    intro m k
    rw [List.foldl_cons, ih]
    rw [keys_bumpCount]
    split
    · constructor
      · rintro (h | h)
        · exact Or.inl h
        · exact Or.inr (by simp [h])
      · rintro (h | h)
        · exact Or.inl h
        · rcases List.mem_cons.mp h with rfl | h
          · exact Or.inl (by assumption)
          · exact Or.inr h
    · constructor
      · rintro (h | h)
        · rcases List.mem_append.mp h with h | h
          · exact Or.inl h
          · exact Or.inr (by simpa using Or.inl (by simpa using h))
        · exact Or.inr (by simp [h])
      · rintro (h | h)
        · exact Or.inl (List.mem_append.mpr (Or.inl h))
        · rcases List.mem_cons.mp h with rfl | h
          · exact Or.inl (List.mem_append.mpr (Or.inr (by simp)))
          · exact Or.inr h

theorem mem_countCharFrequencies_keys (s : List Char) (k : Char) :
    k ∈ (countCharFrequencies s).map Prod.fst ↔ k ∈ s := by
  rw [countCharFrequencies, mem_foldl_bumpCount_keys]
  simp

/-! ## Letters of the built tree -/

theorem heapLetters_foldl_push :
    ∀ (R : List (Char × Nat)) (acc : List CNode),
      (heapLetters (R.foldl (fun h p => heapPush (.huff p.1 p.2 .empty .empty) h) acc)).Perm
        (R.map Prod.fst ++ heapLetters acc) := by
  intro R
  induction R with
  | nil => intro acc; simp
  | cons p R' ih =>
    intro acc
    rw [List.foldl_cons]
    refine (ih _).trans ?_
    have hpush := heapLetters_heapPush (.huff p.1 p.2 .empty .empty) acc
    refine (List.Perm.append_left _ hpush).trans ?_
    show (R'.map Prod.fst ++ ([p.1] ++ heapLetters acc)).Perm _
    rw [List.singleton_append]
    have hmid : (R'.map Prod.fst ++ p.1 :: heapLetters acc).Perm
        (p.1 :: (R'.map Prod.fst ++ heapLetters acc)) := List.perm_middle
    simp only [List.map_cons, List.cons_append]
    exact hmid.trans (by simp)

theorem builtTree_letters_perm {s : List Char} {t : CNode} (hb : builtTreeOf s = some t) :
    (t.letters).Perm ((countCharFrequencies s).map Prod.fst) := by
  refine (buildTree_letters hb).trans ?_
  have := heapLetters_foldl_push (countCharFrequencies s) []
  simpa [nodeHeapOf, heapLetters] using this

theorem builtTree_letters_nodup {s : List Char} {t : CNode} (hb : builtTreeOf s = some t) :
    t.letters.Nodup :=
  (builtTree_letters_perm hb).nodup_iff.mpr (countCharFrequencies_keys_nodup s)

theorem mem_builtTree_letters {s : List Char} {t : CNode} (hb : builtTreeOf s = some t)
    (c : Char) : c ∈ t.letters ↔ c ∈ s := by
  rw [(builtTree_letters_perm hb).mem_iff, mem_countCharFrequencies_keys]

theorem builtTreeOf_isSome {s : List Char} (hne : s ≠ []) :
    ∃ t, builtTreeOf s = some t := by
  rw [builtTreeOf]
  rcases hh : nodeHeapOf s with _ | ⟨n1, rest⟩
  · exfalso
    obtain ⟨c, cs, rfl⟩ : ∃ c cs, s = c :: cs := by
      cases s with
      | nil => exact absurd rfl hne
      | cons c cs => exact ⟨c, cs, rfl⟩
    have hc : c ∈ (countCharFrequencies (c :: cs)).map Prod.fst :=
      (mem_countCharFrequencies_keys _ c).mpr (by simp)
    have : (heapLetters (nodeHeapOf (c :: cs))).Perm
        ((countCharFrequencies (c :: cs)).map Prod.fst) := by
      have := heapLetters_foldl_push (countCharFrequencies (c :: cs)) []
      simpa [nodeHeapOf, heapLetters] using this
    rw [hh] at this
    have : c ∈ heapLetters ([] : List CNode) := this.symm.subset hc
    simp [heapLetters] at this
  · cases rest with
    | nil => exact ⟨_, rfl⟩
    | cons n2 rest2 => exact ⟨_, rfl⟩

/-! ## Facts about the derived code map -/

theorem codeMapOf_eq_recs {s : List Char} {t : CNode} (hb : builtTreeOf s = some t) :
    codeMapOf s = recs t [] := by
  have h1 : codeMapOf s = traverseForCodeMap t [] [] := by
    simp only [codeMapOf, hb]
  rw [h1, traverseForCodeMap_eq_foldl]
  have hnd : ((recs t []).map Prod.fst).Nodup := by
    rw [recs_map_fst]
    exact builtTree_letters_nodup hb
  have := foldl_alSet_of_nodup (recs t []) [] (by simpa using hnd)
  simpa using this

theorem codeMapOf_keys {s : List Char} {t : CNode} (hb : builtTreeOf s = some t) :
    (codeMapOf s).map Prod.fst = t.letters := by
  rw [codeMapOf_eq_recs hb, recs_map_fst]

theorem codeMapOf_keys_nodup {s : List Char} (hne : s ≠ []) :
    ((codeMapOf s).map Prod.fst).Nodup := by
  obtain ⟨t, hb⟩ := builtTreeOf_isSome hne
  rw [codeMapOf_keys hb]
  exact builtTree_letters_nodup hb

theorem codeMapOf_mem_keys {s : List Char} (hne : s ≠ []) (c : Char) :
    c ∈ (codeMapOf s).map Prod.fst ↔ c ∈ s := by
  obtain ⟨t, hb⟩ := builtTreeOf_isSome hne
  rw [codeMapOf_keys hb]
  exact mem_builtTree_letters hb c

theorem codeMapOf_code_ne_nil {s : List Char} (hne : s ≠ []) :
    ∀ p ∈ codeMapOf s, p.2 ≠ [] := by
  obtain ⟨t, hb⟩ := builtTreeOf_isSome hne
  obtain ⟨n, l, r, rfl⟩ := builtTree_isCount hb
  rw [codeMapOf_eq_recs hb]
  exact recs_code_ne_nil_of_count n l r

theorem codeMapOf_code_digits {s : List Char} (hne : s ≠ []) :
    ∀ p ∈ codeMapOf s, ∀ x ∈ p.2, x = '0' ∨ x = '1' := by
  obtain ⟨t, hb⟩ := builtTreeOf_isSome hne
  rw [codeMapOf_eq_recs hb]
  exact recs_code_digits t [] (by simp)

theorem codeMapOf_pairwise_not_pre {s : List Char} (hne : s ≠ []) :
    (codeMapOf s).Pairwise
      (fun p q => ¬ (∃ w, q.2 = p.2 ++ w) ∧ ¬ (∃ w, p.2 = q.2 ++ w)) := by
  obtain ⟨t, hb⟩ := builtTreeOf_isSome hne
  rw [codeMapOf_eq_recs hb]
  exact recs_pairwise_not_pre t []

theorem codeMapOf_not_pre_of_mem {s : List Char} (hne : s ≠ [])
    {p q : Char × List Char} (hp : p ∈ codeMapOf s) (hq : q ∈ codeMapOf s)
    (hpq : p ≠ q) : ¬ (∃ w, q.2 = p.2 ++ w) ∧ ¬ (∃ w, p.2 = q.2 ++ w) := by
  have hsym : Symmetric (fun p q : Char × List Char =>
      ¬ (∃ w, q.2 = p.2 ++ w) ∧ ¬ (∃ w, p.2 = q.2 ++ w)) := by
    intro a b h
    exact ⟨h.2, h.1⟩
  exact (codeMapOf_pairwise_not_pre hne).forall hsym hp hq hpq

theorem codeMapOf_lookup {s : List Char} (hne : s ≠ []) {c : Char} (hc : c ∈ s) :
    ∃ b, (c, b) ∈ codeMapOf s ∧ alGet (codeMapOf s) c = some b := by
  have hmem : c ∈ (codeMapOf s).map Prod.fst := (codeMapOf_mem_keys hne c).mpr hc
  obtain ⟨p, hp, hfst⟩ := List.mem_map.mp hmem
  obtain ⟨c', b⟩ := p
  obtain rfl : c' = c := hfst
  exact ⟨b, hp, alGet_of_mem_nodup (codeMapOf_keys_nodup hne) hp⟩

/-! ## The reverse code map built by the reconstruction -/

theorem codeMapOf_codes_nodup {s : List Char} (hne : s ≠ []) :
    ((codeMapOf s).map Prod.snd).Nodup := by
  have hpw := codeMapOf_pairwise_not_pre hne
  refine List.Pairwise.map Prod.snd ?_ hpw
  intro p q h heq
  exact h.1 ⟨[], by simp [heq]⟩

theorem rcm_of_table {s : List Char} (hne : s ≠ []) :
    (codeMapOf s).foldl (fun m p => alSet m p.2 p.1) [] =
      (codeMapOf s).map (fun p => (p.2, p.1)) := by
  have h1 : (codeMapOf s).foldl (fun m p => alSet m p.2 p.1) [] =
      ((codeMapOf s).map (fun p => (p.2, p.1))).foldl (fun m q => alSet m q.1 q.2) [] := by
    rw [List.foldl_map]
  rw [h1]
  have hnd : (((codeMapOf s).map (fun p => (p.2, p.1))).map Prod.fst).Nodup := by
    have : ((codeMapOf s).map (fun p => (p.2, p.1))).map Prod.fst =
        (codeMapOf s).map Prod.snd := by
      simp [Function.comp]
    rw [this]
    exact codeMapOf_codes_nodup hne
  have := foldl_alSet_of_nodup ((codeMapOf s).map (fun p => (p.2, p.1))) [] (by simpa using hnd)
  simpa using this

theorem rcm_lookup_code {s : List Char} (hne : s ≠ []) {c : Char} {b : List Char}
    (hmem : (c, b) ∈ codeMapOf s) :
    alGet ((codeMapOf s).map (fun p => (p.2, p.1))) b = some c := by
  refine alGet_of_mem_nodup ?_ ?_
  · have : ((codeMapOf s).map (fun p => (p.2, p.1))).map Prod.fst =
        (codeMapOf s).map Prod.snd := by
      simp [Function.comp]
    rw [this]
    exact codeMapOf_codes_nodup hne
  · exact List.mem_map.mpr ⟨(c, b), hmem, rfl⟩

theorem rcm_lookup_pre_none {s : List Char} (hne : s ≠ []) {c : Char} {b : List Char}
    (hmem : (c, b) ∈ codeMapOf s) {p w : List Char} (hsplit : b = p ++ w)
    (hw : w ≠ []) :
    alGet ((codeMapOf s).map (fun q => (q.2, q.1))) p = none := by
  rcases hg : alGet ((codeMapOf s).map (fun q => (q.2, q.1))) p with _ | c'
  · exact hg
  exfalso
  have hp : p ∈ ((codeMapOf s).map (fun q => (q.2, q.1))).map Prod.fst :=
    mem_keys_of_alGet_eq_some hg
  have : p ∈ (codeMapOf s).map Prod.snd := by
    have hcomp : ((codeMapOf s).map (fun q => (q.2, q.1))).map Prod.fst =
        (codeMapOf s).map Prod.snd := by
      simp [Function.comp]
    rwa [hcomp] at hp
  obtain ⟨q, hq, hq2⟩ := List.mem_map.mp this
  have hpb : p ≠ b := by
    intro hpb
    rw [hpb] at hsplit
    have : w = [] := by
      have := congrArg List.length hsplit
      simp only [List.length_append] at this
      exact List.length_eq_zero.mp (by omega)
    exact hw this
  have hqne : q ≠ (c, b) := by
    intro hqe
    rw [hqe] at hq2
    exact hpb hq2.symm
  have := (codeMapOf_not_pre_of_mem hne hq hmem hqne).1
  exact this ⟨w, by rw [hsplit, hq2]⟩

/-! ## The greedy payload decoder -/

theorem decodePayload_nil (rcm : List (List Char × Char)) (acc : List Char) :
    decodePayload rcm [] acc = [] := rfl

theorem decodePayload_step (rcm : List (List Char × Char)) (x : Char) (r acc : List Char)
    (hx : isWS x = false) :
    decodePayload rcm (x :: r) acc =
      match alGet rcm (acc ++ [x]) with
      | some sym => sym :: decodePayload rcm r []
      | none => decodePayload rcm r (acc ++ [x]) := by
  rw [decodePayload, decodePayloadF]
  rw [List.dropWhile_cons_of_neg (by simp [hx])]
  simp only [List.length_cons]
  rcases h : alGet rcm (acc ++ [x]) with _ | sym
  · simp only []
    exact decodePayloadF_congr rcm r.length r _ _ (le_refl _) (by omega)
  · simp only []
    rw [decodePayloadF_congr rcm r.length r [] _ (le_refl _) (by omega)]

theorem decodePayload_consume (rcm : List (List Char × Char)) {b : List Char} {c : Char}
    (hlook : alGet rcm b = some c)
    (hpre : ∀ p w, b = p ++ w → p ≠ [] → w ≠ [] → alGet rcm p = none)
    (hws : ∀ x ∈ b, isWS x = false) :
    ∀ (b2 b1 rest : List Char), b = b1 ++ b2 → b2 ≠ [] →
      decodePayload rcm (b2 ++ rest) b1 = c :: decodePayload rcm rest [] := by
  intro b2
  induction b2 with
  | nil => intro b1 rest _ h; exact absurd rfl h
  | cons x b2' ih =>
    intro b1 rest hb _
    have hxmem : x ∈ b := by
      rw [hb]
      simp
    rw [List.cons_append, decodePayload_step rcm x (b2' ++ rest) b1 (hws x hxmem)]
    rcases hb2 : b2' with _ | ⟨y, b2''⟩
    · have hacc : b1 ++ [x] = b := by
        rw [hb, hb2]
      rw [hacc, hlook]
      subst hb2
      rw [List.nil_append]
    · subst hb2
      have hacc : alGet rcm (b1 ++ [x]) = none := by
        refine hpre (b1 ++ [x]) (y :: b2'') ?_ (by simp) (by simp)
        rw [hb]
        simp
      rw [hacc]
      refine ih (b1 ++ [x]) rest ?_ (by simp)
      rw [hb]
      simp

theorem decodePayload_concat {s : List Char} (hne : s ≠ []) :
    ∀ S' : List Char, (∀ x ∈ S', x ∈ s) →
      decodePayload ((codeMapOf s).map (fun p => (p.2, p.1)))
        (S'.flatMap (fun c => (alGet (codeMapOf s) c).getD [])) [] = S' := by
  intro S'
  induction S' with
  | nil => exact fun _ => decodePayload_nil _ _
  | cons c S'' ih =>
    intro hmem
    obtain ⟨b, hb, hget⟩ := codeMapOf_lookup hne (hmem c (by simp))
    have hflat : ((c :: S'').flatMap (fun c => (alGet (codeMapOf s) c).getD [])) =
        b ++ S''.flatMap (fun c => (alGet (codeMapOf s) c).getD []) := by
      rw [List.flatMap_cons, hget]
      rfl
    rw [hflat]
    have hbne : b ≠ [] := codeMapOf_code_ne_nil hne (c, b) hb
    have hcons := decodePayload_consume ((codeMapOf s).map (fun p => (p.2, p.1)))
      (rcm_lookup_code hne hb)
      (fun p w hsplit hp hw => rcm_lookup_pre_none hne hb hsplit hw)
      (by
        intro x hx
        rcases codeMapOf_code_digits hne (c, b) hb x hx with rfl | rfl <;> rfl)
      b [] (S''.flatMap (fun c => (alGet (codeMapOf s) c).getD [])) (by simp) hbne
    rw [hcons]
    rw [ih (fun x hx => hmem x (by simp [hx]))]

/-! ## The round trip -/

theorem reconstructTree_of_encode {s : List Char} (hne : s ≠ []) (hnl : '\n' ∉ s)
    (hlen : ∀ p ∈ codeMapOf s, p.2.length ≤ 10) :
    ∃ t', reconstructTree (encode s) =
      .ok ((codeMapOf s).foldl (fun m p => alSet m p.1 p.2) [],
           (codeMapOf s).map (fun p => (p.2, p.1)), t', payloadOf s) := by
  have hcond : ∀ p ∈ codeMapOf s, p.1 ≠ '\n' ∧ p.2 ≠ [] ∧
      (∀ x ∈ p.2, x = '0' ∨ x = '1') ∧ p.2.length ≤ 10 := by
    intro p hp
    refine ⟨?_, codeMapOf_code_ne_nil hne p hp, codeMapOf_code_digits hne p hp, hlen p hp⟩
    intro hp1
    apply hnl
    have hmemk : p.1 ∈ (codeMapOf s).map Prod.fst := List.mem_map.mpr ⟨p, hp, rfl⟩
    have hins := (codeMapOf_mem_keys hne p.1).mp hmemk
    rwa [hp1] at hins
  obtain ⟨t', ht⟩ := reconLoop_table (codeMapOf s) (payloadOf s) [] []
    (.count 0 .empty .empty) hcond
  refine ⟨t', ?_⟩
  have henc : encode s =
      ((codeMapOf s).flatMap (fun p => p.1 :: p.2 ++ ['\n'])) ++ '\n' :: payloadOf s := by
    rw [encode, tableOf, List.append_assoc]
    rfl
  rw [reconstructTree, henc, ht]
  rw [rcm_of_table hne]

/-- Claim C1's round trip, amended with the code-length bound that keeps
stoi inside the int range during reconstruction. -/
theorem decode_encode_ok {s : List Char} (hne : s ≠ []) (hnl : '\n' ∉ s)
    (hlen : ∀ p ∈ codeMapOf s, p.2.length ≤ 10) :
    decode (encode s) = .ok s := by
  obtain ⟨t', ht⟩ := reconstructTree_of_encode hne hnl hlen
  have hdec : decode (encode s) =
      .ok (decodePayload ((codeMapOf s).map (fun p => (p.2, p.1))) (payloadOf s) []) := by
    rw [decode, ht]
  rw [hdec]
  rw [show payloadOf s = s.flatMap (fun c => (alGet (codeMapOf s) c).getD []) from rfl]
  rw [decodePayload_concat hne s (fun x hx => hx)]

/-! ## Concrete evaluation of the pipeline on `sPow2` -/

theorem alSet_self_eq {α β : Type} [DecidableEq α] {m : List (α × β)} {a : α} {b : β}
    (h : alGet m a = some b) : alSet m a b = m := by
  induction m with
  | nil => simp [alGet] at h
  | cons p t ih =>
    obtain ⟨k, v⟩ := p
    by_cases hk : k = a
    · subst hk
      rw [alGet, if_pos rfl] at h
      rw [Option.some.injEq] at h
      subst h
      simp [alSet]
    · rw [alGet] at h
      rw [if_neg hk] at h
      simp [alSet, hk, ih h]

theorem alSet_alSet {α β : Type} [DecidableEq α] (m : List (α × β)) (a : α) (b b' : β) :
    alSet (alSet m a b) a b' = alSet m a b' := by
  induction m with
  | nil => simp [alSet]
  | cons p t ih =>
    obtain ⟨k, v⟩ := p
    by_cases hk : k = a
    · subst hk
      simp [alSet]
    · simp [alSet, hk, ih]

theorem foldl_bumpCount_replicate_some {m : List (Char × Nat)} {c : Char} {k : Nat}
    (h : alGet m c = some k) :
    ∀ n : Nat, (List.replicate n c).foldl bumpCount m = alSet m c (k + n) := by
  intro n
  induction n generalizing m k with
  | zero => simpa using (alSet_self_eq h).symm
  | succ n ih =>
    rw [List.replicate_succ, List.foldl_cons]
    have hb : bumpCount m c = alSet m c (k + 1) := by
      rw [bumpCount, h]
    rw [hb]
    rw [ih (alGet_alSet_self m c (k + 1))]
    rw [alSet_alSet]
    congr 1
    omega

theorem foldl_bumpCount_replicate_none {m : List (Char × Nat)} {c : Char}
    (h : alGet m c = none) :
    ∀ n : Nat, 1 ≤ n → (List.replicate n c).foldl bumpCount m = alSet m c n := by
  intro n hn
  obtain ⟨n', rfl⟩ : ∃ n', n = n' + 1 := ⟨n - 1, by omega⟩
  rw [List.replicate_succ, List.foldl_cons]
  have hb : bumpCount m c = alSet m c 1 := by
    rw [bumpCount, h]
  rw [hb]
  rw [foldl_bumpCount_replicate_some (alGet_alSet_self m c 1) n']
  rw [alSet_alSet]
  congr 1
  omega

theorem freq_sPow2 : countCharFrequencies sPow2 =
    [('a', 1), ('b', 2), ('c', 4), ('d', 8), ('e', 16), ('f', 32), ('g', 64),
     ('h', 128), ('i', 256), ('j', 512), ('k', 1024), ('l', 2048)] := by
  rw [countCharFrequencies, sPow2]
  simp only [List.foldl_append]
  rw [foldl_bumpCount_replicate_none (by decide) 1 (by norm_num)]
  rw [foldl_bumpCount_replicate_none (by decide) 2 (by norm_num)]
  rw [foldl_bumpCount_replicate_none (by decide) 4 (by norm_num)]
  rw [foldl_bumpCount_replicate_none (by decide) 8 (by norm_num)]
  rw [foldl_bumpCount_replicate_none (by decide) 16 (by norm_num)]
  rw [foldl_bumpCount_replicate_none (by decide) 32 (by norm_num)]
  rw [foldl_bumpCount_replicate_none (by decide) 64 (by norm_num)]
  rw [foldl_bumpCount_replicate_none (by decide) 128 (by norm_num)]
  rw [foldl_bumpCount_replicate_none (by decide) 256 (by norm_num)]
  rw [foldl_bumpCount_replicate_none (by decide) 512 (by norm_num)]
  rw [foldl_bumpCount_replicate_none (by decide) 1024 (by norm_num)]
  rw [foldl_bumpCount_replicate_none (by decide) 2048 (by norm_num)]
  decide

theorem codeMap_sPow2 : codeMapOf sPow2 =
    [('l', ['0']),
     ('k', ['1', '0']),
     ('j', ['1', '1', '0']),
     ('i', ['1', '1', '1', '0']),
     ('h', ['1', '1', '1', '1', '0']),
     ('g', ['1', '1', '1', '1', '1', '0']),
     ('f', ['1', '1', '1', '1', '1', '1', '0']),
     ('e', ['1', '1', '1', '1', '1', '1', '1', '0']),
     ('d', ['1', '1', '1', '1', '1', '1', '1', '1', '0']),
     ('c', ['1', '1', '1', '1', '1', '1', '1', '1', '1', '0']),
     ('b', ['1', '1', '1', '1', '1', '1', '1', '1', '1', '1', '0']),
     ('a', ['1', '1', '1', '1', '1', '1', '1', '1', '1', '1', '1'])] := by
  rw [codeMapOf, builtTreeOf, nodeHeapOf, freq_sPow2]
  decide

theorem reconLoop_skip_records :
    ∀ (R : List (Char × List Char)) (rest : List Char) (cm : List (Char × List Char))
      (rcm : List (List Char × Char)) (t : CNode),
      (∀ p ∈ R, p.1 ≠ '\n' ∧ p.2 ≠ [] ∧ (∀ x ∈ p.2, x = '0' ∨ x = '1') ∧ p.2.length ≤ 10) →
      ∃ cm' rcm' t', reconLoop ((R.flatMap (fun p => p.1 :: p.2 ++ ['\n'])) ++ rest) cm rcm t
        = reconLoop rest cm' rcm' t' := by
  intro R
  induction R with
  | nil =>
    intro rest cm rcm t _
    exact ⟨cm, rcm, t, by simp⟩
  | cons p R' ih =>
    intro rest cm rcm t hR
    obtain ⟨c, b⟩ := p
    obtain ⟨hc, hne, hd, hlen⟩ := hR (c, b) (by simp)
    obtain ⟨v, hst, _⟩ := stoi_digits hne hd hlen
    have hb : ∀ x ∈ b, x ≠ '\n' := by
      intro x hx
      rcases hd x hx with rfl | rfl <;> decide
    have heq : ((c, b) :: R').flatMap (fun p => p.1 :: p.2 ++ ['\n']) ++ rest =
        c :: (b ++ '\n' :: (R'.flatMap (fun p => p.1 :: p.2 ++ ['\n']) ++ rest)) := by
      simp
    rw [heq, reconLoop_step_record cm rcm t hc hb hst]
    exact ih rest _ _ _ (fun q hq => hR q (by simp [hq]))

/-- The bad record of the `sPow2` table: the code of `'b'` has eleven digits,
and its decimal reading 11111111110 exceeds `INT_MAX`, so `stoi` raises
`std::out_of_range` (uncaught). -/
theorem stoi_code_b_errors :
    stoi ['1', '1', '1', '1', '1', '1', '1', '1', '1', '1', '0'] = .error () := rfl

theorem decode_encode_sPow2 : decode (encode sPow2) = .error () := by
  have hsplit : codeMapOf sPow2 =
      [('l', ['0']),
       ('k', ['1', '0']),
       ('j', ['1', '1', '0']),
       ('i', ['1', '1', '1', '0']),
       ('h', ['1', '1', '1', '1', '0']),
       ('g', ['1', '1', '1', '1', '1', '0']),
       ('f', ['1', '1', '1', '1', '1', '1', '0']),
       ('e', ['1', '1', '1', '1', '1', '1', '1', '0']),
       ('d', ['1', '1', '1', '1', '1', '1', '1', '1', '0']),
       ('c', ['1', '1', '1', '1', '1', '1', '1', '1', '1', '0'])] ++
      [('b', ['1', '1', '1', '1', '1', '1', '1', '1', '1', '1', '0']),
       ('a', ['1', '1', '1', '1', '1', '1', '1', '1', '1', '1', '1'])] := by
    rw [codeMap_sPow2]
    rfl
  have henc : encode sPow2 =
      (([('l', ['0']),
         ('k', ['1', '0']),
         ('j', ['1', '1', '0']),
         ('i', ['1', '1', '1', '0']),
         ('h', ['1', '1', '1', '1', '0']),
         ('g', ['1', '1', '1', '1', '1', '0']),
         ('f', ['1', '1', '1', '1', '1', '1', '0']),
         ('e', ['1', '1', '1', '1', '1', '1', '1', '0']),
         ('d', ['1', '1', '1', '1', '1', '1', '1', '1', '0']),
         ('c', ['1', '1', '1', '1', '1', '1', '1', '1', '1', '0'])] :
          List (Char × List Char)).flatMap (fun p => p.1 :: p.2 ++ ['\n'])) ++
      ('b' :: (['1', '1', '1', '1', '1', '1', '1', '1', '1', '1', '0'] ++ '\n' ::
        ('a' :: (['1', '1', '1', '1', '1', '1', '1', '1', '1', '1', '1'] ++ '\n' ::
          ('\n' :: payloadOf sPow2))))) := by
    rw [encode, tableOf, hsplit]
    simp [List.flatMap_append]
  obtain ⟨cm', rcm', t', hskip⟩ := reconLoop_skip_records
    [('l', ['0']),
     ('k', ['1', '0']),
     ('j', ['1', '1', '0']),
     ('i', ['1', '1', '1', '0']),
     ('h', ['1', '1', '1', '1', '0']),
     ('g', ['1', '1', '1', '1', '1', '0']),
     ('f', ['1', '1', '1', '1', '1', '1', '0']),
     ('e', ['1', '1', '1', '1', '1', '1', '1', '0']),
     ('d', ['1', '1', '1', '1', '1', '1', '1', '1', '0']),
     ('c', ['1', '1', '1', '1', '1', '1', '1', '1', '1', '0'])]
    ('b' :: (['1', '1', '1', '1', '1', '1', '1', '1', '1', '1', '0'] ++ '\n' ::
      ('a' :: (['1', '1', '1', '1', '1', '1', '1', '1', '1', '1', '1'] ++ '\n' ::
        ('\n' :: payloadOf sPow2)))))
    [] [] (.count 0 .empty .empty) (by decide)
  have herr : reconstructTree (encode sPow2) = .error () := by
    rw [reconstructTree, henc, hskip]
    exact reconLoop_step_error cm' rcm' t' (by decide) (by decide) stoi_code_b_errors
  rw [decode, herr]

/-- Claim C1 as stated is false: on `sPow2` (nonempty, newline-free) the
decoder dies inside `stoi` instead of returning the input. -/
theorem c1_counterexample :
    sPow2 ≠ [] ∧ '\n' ∉ sPow2 ∧ decode (encode sPow2) = .error () ∧
      decode (encode sPow2) ≠ .ok sPow2 := by
  refine ⟨?_, ?_, decode_encode_sPow2, ?_⟩
  · rw [sPow2]
    simp only [ne_eq, List.append_eq_nil, List.replicate_eq_nil_iff]
    omega
  · intro hmem
    have hrep : ∀ (n : Nat) (d : Char), '\n' ≠ d → '\n' ∉ List.replicate n d := by
      intro n d hd hm
      exact hd (List.eq_of_mem_replicate hm)
    rw [sPow2] at hmem
    rcases List.mem_append.mp hmem with hmem | h
    case inr => exact hrep _ _ (by decide) h
    rcases List.mem_append.mp hmem with hmem | h
    case inr => exact hrep _ _ (by decide) h
    rcases List.mem_append.mp hmem with hmem | h
    case inr => exact hrep _ _ (by decide) h
    rcases List.mem_append.mp hmem with hmem | h
    case inr => exact hrep _ _ (by decide) h
    rcases List.mem_append.mp hmem with hmem | h
    case inr => exact hrep _ _ (by decide) h
    rcases List.mem_append.mp hmem with hmem | h
    case inr => exact hrep _ _ (by decide) h
    rcases List.mem_append.mp hmem with hmem | h
    case inr => exact hrep _ _ (by decide) h
    rcases List.mem_append.mp hmem with hmem | h
    case inr => exact hrep _ _ (by decide) h
    rcases List.mem_append.mp hmem with hmem | h
    case inr => exact hrep _ _ (by decide) h
    rcases List.mem_append.mp hmem with hmem | h
    case inr => exact hrep _ _ (by decide) h
    rcases List.mem_append.mp hmem with hmem | h
    case inr => exact hrep _ _ (by decide) h
    exact hrep _ _ (by decide) hmem
  · rw [decode_encode_sPow2]
    simp

/-! ## The Boolean prefix test -/

theorem isPreB_iff : ∀ (a b : List Char), isPreB a b = true ↔ ∃ w, b = a ++ w := by
  intro a
  induction a with
  | nil =>
    intro b
    simp [isPreB]
  | cons x xs ih =>
    intro b
    cases b with
    | nil =>
      rw [isPreB]
      simp
    | cons y ys =>
      rw [isPreB]
      simp only [Bool.and_eq_true, decide_eq_true_eq, ih ys]
      constructor
      · rintro ⟨rfl, w, rfl⟩
        exact ⟨w, rfl⟩
      · rintro ⟨w, hw⟩
        simp only [List.cons_append, List.cons.injEq] at hw
        exact ⟨hw.1.symm, w, hw.2⟩

theorem isPreB_eq_false_iff (a b : List Char) : isPreB a b = false ↔ ¬ ∃ w, b = a ++ w := by
  rw [← isPreB_iff]
  cases h : isPreB a b <;> simp

/-! ## The reconstruction walk as a path insertion (claim C3) -/

theorem insertWalk_eq_pathInsert :
    ∀ (len : Nat) (t : CNode) (v : Int) (ch : Char), 1 ≤ len →
      insertWalk t v len ch = pathInsert t (lsbSteps v len) ch := by
  intro len
  induction len with
  | zero => intro t v ch h; omega
  | succ n ih =>
    intro t v ch _
    cases n with
    | zero => rfl
    | succ m =>
      rw [insertWalk, lsbSteps, lsbSteps, pathInsert]
      rw [ih _ (Int.fdiv v 2) ch (by omega), lsbSteps]

/-! ## Well-formed internal nodes (claim C6) -/

theorem mem_heapPush {x n : CNode} {h : List CNode} (hm : x ∈ heapPush n h) :
    x = n ∨ x ∈ h := by
  have := (heapPush_perm n h).mem_iff.mp hm
  simpa using this

theorem mergeLoop_wf :
    ∀ (k : Nat) (h : List CNode), h.length ≤ k → h ≠ [] →
      (∀ x ∈ h, wfInternal x = true ∧ x ≠ .empty) →
      wfInternal (mergeLoop h) = true ∧ mergeLoop h ≠ .empty := by
  intro k
  induction k with
  | zero =>
    intro h hk hne _
    exact absurd (List.length_eq_zero.mp (Nat.le_zero.mp hk)) hne
  | succ k ih =>
    intro h hk hne hall
    match h with
    | [] => exact absurd rfl hne
    | [t] =>
      show wfInternal (mergeLoopF 1 [t]) = true ∧ mergeLoopF 1 [t] ≠ .empty
      rw [mergeLoopF]
      exact hall t (by simp)
    | a :: b :: r =>
      rw [mergeLoop_cons₂]
      have ha := hall a (by simp)
      have hb := hall b (by simp)
      have hnode : wfInternal (CNode.count (a.wt + b.wt) b a) = true ∧
          (CNode.count (a.wt + b.wt) b a) ≠ .empty := by
        refine ⟨?_, by simp⟩
        rw [wfInternal]
        simp only [Bool.and_eq_true, decide_eq_true_eq]
        refine ⟨⟨⟨⟨by simpa using hb.2, by simpa using ha.2⟩, by omega⟩, hb.1⟩, ha.1⟩
      refine ih _ ?_ ?_ ?_
      · rw [length_heapPush]
        simp only [List.length_cons] at hk ⊢
        omega
      · intro hh
        have := length_heapPush (CNode.count (a.wt + b.wt) b a) r
        rw [hh] at this
        simp at this
      · intro x hx
        rcases mem_heapPush hx with rfl | hx
        · exact hnode
        · exact hall x (by simp [hx])

theorem length_nodeHeapOf (s : List Char) :
    (nodeHeapOf s).length = (countCharFrequencies s).length := by
  rw [nodeHeapOf]
  generalize countCharFrequencies s = R
  suffices h : ∀ (R : List (Char × Nat)) (acc : List CNode),
      (R.foldl (fun h p => heapPush (.huff p.1 p.2 .empty .empty) h) acc).length =
        acc.length + R.length by
    simpa using h R []
  intro R
  induction R with
  | nil => intro acc; simp
  | cons p R' ih =>
    intro acc
    rw [List.foldl_cons, ih, length_heapPush]
    simp only [List.length_cons]
    omega

theorem nodeHeapOf_all_wf (s : List Char) :
    ∀ x ∈ nodeHeapOf s, wfInternal x = true ∧ x ≠ .empty := by
  rw [nodeHeapOf]
  generalize countCharFrequencies s = R
  suffices h : ∀ (R : List (Char × Nat)) (acc : List CNode),
      (∀ x ∈ acc, wfInternal x = true ∧ x ≠ .empty) →
      ∀ x ∈ R.foldl (fun h p => heapPush (.huff p.1 p.2 .empty .empty) h) acc,
        wfInternal x = true ∧ x ≠ .empty by
    exact h R [] (by simp)
  intro R
  induction R with
  | nil => intro acc hacc; exact hacc
  | cons p R' ih =>
    intro acc hacc x hx
    rw [List.foldl_cons] at hx
    refine ih _ ?_ x hx
    intro y hy
    rcases mem_heapPush hy with rfl | hy
    · exact ⟨rfl, by simp⟩
    · exact hacc y hy

theorem builtTree_wf {s : List Char} {t : CNode}
    (h2 : 2 ≤ (countCharFrequencies s).length) (hb : builtTreeOf s = some t) :
    wfInternal t = true := by
  rw [builtTreeOf] at hb
  have hall := nodeHeapOf_all_wf s
  have hlen : 2 ≤ (nodeHeapOf s).length := by
    rw [length_nodeHeapOf]
    exact h2
  match hh : nodeHeapOf s with
  | [] => rw [hh] at hb; simp [buildTree] at hb
  | [n1] =>
    rw [hh] at hlen
    simp at hlen
  | n1 :: n2 :: rest2 =>
    rw [hh] at hb hall
    rw [buildTree] at hb
    simp only [Option.some.injEq] at hb
    subst hb
    have h1 := hall n1 (by simp)
    have h2' := hall n2 (by simp)
    have hnode : wfInternal (CNode.count (n1.wt + n2.wt) n2 n1) = true ∧
        (CNode.count (n1.wt + n2.wt) n2 n1) ≠ .empty := by
      refine ⟨?_, by simp⟩
      rw [wfInternal]
      simp only [Bool.and_eq_true, decide_eq_true_eq]
      refine ⟨⟨⟨⟨by simpa using h2'.2, by simpa using h1.2⟩, by omega⟩, h2'.1⟩, h1.1⟩
    have hne : heapPush (CNode.count (n1.wt + n2.wt) n2 n1) rest2 ≠ [] := by
      intro hh'
      have := length_heapPush (CNode.count (n1.wt + n2.wt) n2 n1) rest2
      rw [hh'] at this
      simp at this
    refine (mergeLoop_wf _ _ (le_refl _) hne ?_).1
    intro x hx
    rcases mem_heapPush hx with rfl | hx
    · exact hnode
    · exact hall x (by simp [hx])

/-! ## The single-symbol input (claim C7) -/

theorem countCharFrequencies_replicate (c : Char) (n : Nat) (hn : 1 ≤ n) :
    countCharFrequencies (List.replicate n c) = [(c, n)] := by
  rw [countCharFrequencies]
  rw [foldl_bumpCount_replicate_none (show alGet ([] : List (Char × Nat)) c = none from rfl) n hn]
  rfl

theorem codeMapOf_replicate (c : Char) (n : Nat) (hn : 1 ≤ n) :
    codeMapOf (List.replicate n c) = [(c, ['1'])] := by
  rw [codeMapOf, builtTreeOf, nodeHeapOf, countCharFrequencies_replicate c n hn]
  rfl

/-! ## Decoding factors through the parsed records (claim C9) -/

theorem parseRecords_of_splitLine_none {input : List Char} (h : splitLine input = none) :
    parseRecords input = ([], []) := by
  rw [parseRecords, parseRecordsF, h]

theorem parseRecords_of_splitLine_blank {input rest : List Char}
    (h : splitLine input = some ([], rest)) : parseRecords input = ([], rest) := by
  rw [parseRecords, parseRecordsF, h]

theorem parseRecords_of_splitLine_record {input rest : List Char} {ch : Char}
    {code : List Char} (h : splitLine input = some (ch :: code, rest)) :
    parseRecords input = ((ch, code) :: (parseRecords rest).1, (parseRecords rest).2) := by
  rw [parseRecords, parseRecordsF, h]
  simp only []
  rw [parseRecordsF_congr rest.length rest input.length (le_refl _)
    (splitLine_rest_lt h)]

theorem reconLoop_of_splitLine_none {input : List Char}
    (cm : List (Char × List Char)) (rcm : List (List Char × Char)) (t : CNode)
    (h : splitLine input = none) : reconLoop input cm rcm t = .ok (cm, rcm, t, []) := by
  rw [reconLoop, reconLoopF, h]

theorem reconLoop_of_splitLine_blank {input rest : List Char}
    (cm : List (Char × List Char)) (rcm : List (List Char × Char)) (t : CNode)
    (h : splitLine input = some ([], rest)) : reconLoop input cm rcm t = .ok (cm, rcm, t, rest) := by
  rw [reconLoop, reconLoopF, h]

theorem reconLoop_of_splitLine_record {input rest : List Char} {ch : Char} {code : List Char}
    (cm : List (Char × List Char)) (rcm : List (List Char × Char)) (t : CNode)
    (h : splitLine input = some (ch :: code, rest)) :
    reconLoop input cm rcm t =
      match stoi code with
      | .error _ => .error ()
      | .ok b => reconLoop rest (alSet cm ch code) (alSet rcm code ch)
          (insertWalk t b code.length ch) := by
  rw [reconLoop, reconLoopF, h]
  rcases hst : stoi code with u | b
  · simp only [hst]
  · simp only [hst]
    exact reconLoopF_congr rest.length rest _ _ _ input.length (le_refl _)
      (splitLine_rest_lt h)

theorem reconLoop_parse :
    ∀ (n : Nat) (input : List Char), input.length ≤ n →
      ∀ (cm : List (Char × List Char)) (rcm : List (List Char × Char)) (t : CNode),
      ∃ cm' t',
        reconLoop input cm rcm t =
          match (parseRecords input).1.foldlM
              (fun rcm (p : Char × List Char) =>
                match stoi p.2 with
                | .error _ => Except.error ()
                | .ok _ => Except.ok (alSet rcm p.2 p.1)) rcm with
          | .error _ => .error ()
          | .ok rcm' => .ok (cm', rcm', t', (parseRecords input).2) := by
  intro n
  induction n with
  | zero =>
    intro input hn cm rcm t
    have : input = [] := List.length_eq_zero.mp (Nat.le_zero.mp hn)
    subst this
    exact ⟨cm, t, rfl⟩
  | succ n ih =>
    intro input hn cm rcm t
    rcases hsl : splitLine input with _ | ⟨line, rest⟩
    · refine ⟨cm, t, ?_⟩
      rw [reconLoop_of_splitLine_none cm rcm t hsl]
      rw [parseRecords_of_splitLine_none hsl]
      rfl
    · rcases line with _ | ⟨ch, code⟩
      · refine ⟨cm, t, ?_⟩
        rw [reconLoop_of_splitLine_blank cm rcm t hsl]
        rw [parseRecords_of_splitLine_blank hsl]
        rfl
      · rw [reconLoop_of_splitLine_record cm rcm t hsl]
        rw [parseRecords_of_splitLine_record hsl]
        have hrlen : rest.length ≤ n := by
          have := splitLine_rest_lt hsl
          omega
        rcases hst : stoi code with _ | b
        · refine ⟨cm, t, ?_⟩
          simp only [List.foldlM_cons, hst]
          rfl
        · obtain ⟨cm', t', hih⟩ := ih rest hrlen (alSet cm ch code) (alSet rcm code ch)
            (insertWalk t b code.length ch)
          refine ⟨cm', t', ?_⟩
          simp only [List.foldlM_cons, hst]
          exact hih

theorem decode_factors (input : List Char) :
    decode input = decodeFromParts (parseRecords input).1 (parseRecords input).2 := by
  obtain ⟨cm', t', h⟩ := reconLoop_parse input.length input (le_refl _) [] []
    (.count 0 .empty .empty)
  rw [decode, reconstructTree, h, decodeFromParts]
  rcases hfold : (parseRecords input).1.foldlM
      (fun rcm (p : Char × List Char) =>
        match stoi p.2 with
        | .error _ => Except.error ()
        | .ok _ => Except.ok (alSet rcm p.2 p.1)) ([] : List (List Char × Char)) with _ | rcm'
  · rw [hfold]
  · rw [hfold]

/-! ## Whitespace skipping in the payload loop (claim C10) -/

theorem dropWhile_head_false {p : Char → Bool} :
    ∀ {s r : List Char} {c : Char}, s.dropWhile p = c :: r → p c = false := by
  intro s
  induction s with
  | nil => intro r c h; simp [List.dropWhile] at h
  | cons x xs ih =>
    intro r c h
    by_cases hp : p x
    · rw [List.dropWhile_cons_of_pos hp] at h
      exact ih h
    · rw [List.dropWhile_cons_of_neg hp] at h
      injection h with h1 _
      subst h1
      simpa using hp

theorem filter_eq_of_dropWhile {s r : List Char} {c : Char}
    (h : s.dropWhile isWS = c :: r) :
    s.filter (fun x => !isWS x) = c :: r.filter (fun x => !isWS x) := by
  conv_lhs => rw [← List.takeWhile_append_dropWhile (p := isWS) (l := s)]
  rw [List.filter_append, h]
  have htw : (s.takeWhile isWS).filter (fun x => !isWS x) = [] := by
    rw [List.filter_eq_nil_iff]
    intro a ha
    have := List.mem_takeWhile_imp ha
    simp [this]
  rw [htw, List.nil_append, List.filter_cons]
  rw [dropWhile_head_false h]
  rfl

theorem filter_eq_nil_of_dropWhile_nil {s : List Char} (h : s.dropWhile isWS = []) :
    s.filter (fun x => !isWS x) = [] := by
  rw [List.filter_eq_nil_iff]
  intro a ha
  have := List.dropWhile_eq_nil_iff.mp h a ha
  simp [this]

theorem decodePayload_eq_noWS :
    ∀ (n : Nat) (rcm : List (List Char × Char)) (s acc : List Char), s.length ≤ n →
      decodePayload rcm s acc = decodePayloadNoWS rcm (s.filter (fun x => !isWS x)) acc := by
  intro n
  induction n with
  | zero =>
    intro rcm s acc hn
    have : s = [] := List.length_eq_zero.mp (Nat.le_zero.mp hn)
    subst this
    rfl
  | succ n ih =>
    intro rcm s acc hn
    rcases hdw : s.dropWhile isWS with _ | ⟨c, r⟩
    · rw [decodePayload, decodePayloadF, hdw, filter_eq_nil_of_dropWhile_nil hdw]
      rfl
    · have hr : r.length < s.length := by
        have := length_dropWhile_le' isWS s
        rw [hdw] at this
        simp only [List.length_cons] at this
        omega
      rw [decodePayload, decodePayloadF, hdw, filter_eq_of_dropWhile hdw]
      rw [decodePayloadNoWS]
      simp only []
      rcases halg : alGet rcm (acc ++ [c]) with _ | sym
      · simp only []
        rw [decodePayloadF_congr rcm r.length r _ _ (le_refl _) (by omega)]
        exact ih rcm r (acc ++ [c]) (by omega)
      · simp only []
        rw [decodePayloadF_congr rcm r.length r [] _ (le_refl _) (by omega)]
        rw [ih rcm r [] (by omega)]

/-! ## Code length monotonicity (claim C8): the heap run -/

theorem heapAtN_succ_front (h : List CNode) (n : Nat) :
    heapAtN h (n + 1) = heapAtN (heapStep h) n := by
  induction n with
  | zero => rfl
  | succ n ih =>
    show heapStep (heapAtN h (n + 1)) = heapAtN (heapStep h) (n + 1)
    rw [ih]
    rfl

theorem heapAtN_add (h : List CNode) (a b : Nat) :
    heapAtN h (a + b) = heapAtN (heapAtN h a) b := by
  induction b with
  | zero => rfl
  | succ b ih =>
    show heapStep (heapAtN h (a + b)) = heapStep (heapAtN (heapAtN h a) b)
    rw [ih]

theorem mem_heapPush_iff {x n : CNode} {l : List CNode} :
    x ∈ heapPush n l ↔ x = n ∨ x ∈ l := by
  rw [(heapPush_perm n l).mem_iff, List.mem_cons]

theorem wtSorted_cons {x : CNode} {t : List CNode} (h : wtSorted (x :: t)) :
    (∀ y ∈ t, x.wt ≤ y.wt) ∧ wtSorted t := by
  rw [wtSorted, List.pairwise_cons] at h
  exact h

theorem wtSorted_heapPush {l : List CNode} (n : CNode) (hs : wtSorted l) :
    wtSorted (heapPush n l) := by
  induction l with
  | nil => exact List.pairwise_singleton _ _
  | cons x t ih =>
    obtain ⟨hx, ht⟩ := wtSorted_cons hs
    rw [heapPush]
    split
    case isTrue hle =>
      rw [wtSorted, List.pairwise_cons]
      constructor
      · intro y hy
        rcases mem_heapPush_iff.mp hy with rfl | hy
        · exact hle
        · exact hx y hy
      · exact ih ht
    case isFalse hgt =>
      rw [wtSorted, List.pairwise_cons]
      constructor
      · intro y hy
        rcases List.mem_cons.mp hy with rfl | hy
        · omega
        · exact le_trans (by omega) (hx y hy)
      · exact hs

theorem length_heapStep (g : List CNode) :
    (heapStep g).length = max (g.length - 1) 1 ∨ g = [] := by
  match g with
  | [] => exact Or.inr rfl
  | [x] => exact Or.inl rfl
  | x :: y :: rr =>
    refine Or.inl ?_
    show (heapPush _ rr).length = _
    rw [length_heapPush]
    simp only [List.length_cons]
    omega

theorem length_heapAtN {h : List CNode} (h1 : 1 ≤ h.length) (k : Nat) :
    (heapAtN h k).length = max (h.length - k) 1 := by
  induction k with
  | zero =>
    show h.length = _
    omega
  | succ k ih =>
    show (heapStep (heapAtN h k)).length = _
    rcases length_heapStep (heapAtN h k) with hl | hnil
    · rw [hl, ih]; omega
    · rw [hnil] at ih; simp at ih; omega

theorem goodHeap_heapStep {h : List CNode} (hg : GoodHeap h) : GoodHeap (heapStep h) := by
  match h with
  | [] => exact hg
  | [x] => exact hg
  | x :: y :: rr =>
    obtain ⟨hs, hn, hnn⟩ := hg
    obtain ⟨hx, hs'⟩ := wtSorted_cons hs
    obtain ⟨hy, hs''⟩ := wtSorted_cons hs'
    refine ⟨?_, ?_, ?_⟩
    · exact wtSorted_heapPush _ hs''
    · have hperm : (heapLetters (heapPush (CNode.count (x.wt + y.wt) y x) rr)).Perm
          (heapLetters (x :: y :: rr)) := by
        refine (heapLetters_heapPush _ _).trans ?_
        show (CNode.letters y ++ CNode.letters x ++ heapLetters rr).Perm _
        rw [heapLetters_cons, heapLetters_cons, ← List.append_assoc]
        exact List.Perm.append_right _ List.perm_append_comm
      exact hperm.nodup_iff.mpr hn
    · intro t ht
      rcases mem_heapPush_iff.mp ht with rfl | ht
      · show (CNode.letters y ++ CNode.letters x) ≠ []
        have hxl := hnn x (by simp)
        intro hc
        rw [List.append_eq_nil] at hc
        exact hxl hc.2
      · exact hnn t (by simp [ht])

theorem goodHeap_heapAtN {h : List CNode} (hg : GoodHeap h) (k : Nat) :
    GoodHeap (heapAtN h k) := by
  induction k with
  | zero => exact hg
  | succ k ih => exact goodHeap_heapStep ih

theorem letters_mem_heapLetters {u : CNode} {h : List CNode} (hu : u ∈ h)
    {c : Char} (hc : c ∈ u.letters) : c ∈ heapLetters h := by
  induction h with
  | nil => simp at hu
  | cons x t ih =>
    rw [heapLetters_cons, List.mem_append]
    rcases List.mem_cons.mp hu with rfl | hu
    · exact Or.inl hc
    · exact Or.inr (ih hu)

theorem heap_shared_letter {h : List CNode} (hn : (heapLetters h).Nodup) :
    ∀ {u v : CNode}, u ∈ h → v ∈ h → u ≠ v → ∀ {c : Char},
      c ∈ u.letters → c ∈ v.letters → False := by
  induction h with
  | nil => intro u v hu; simp at hu
  | cons x t ih =>
    intro u v hu hv huv c hcu hcv
    rw [heapLetters_cons, List.nodup_append] at hn
    obtain ⟨hn1, hn2, hdisj⟩ := hn
    rcases List.mem_cons.mp hu with hux | hut
    · rcases List.mem_cons.mp hv with hvx | hvt
      · exact huv (hux.trans hvx.symm)
      · exact hdisj (hux ▸ hcu) (letters_mem_heapLetters hvt hcv)
    · rcases List.mem_cons.mp hv with hvx | hvt
      · exact hdisj (hvx ▸ hcv) (letters_mem_heapLetters hut hcu)
      · exact ih hn2 hut hvt huv hcu hcv

theorem goodHeap_nodup : ∀ {h : List CNode}, GoodHeap h → h.Nodup := by
  intro h
  induction h with
  | nil => intro _; exact List.nodup_nil
  | cons x t ih =>
    intro hg
    obtain ⟨hs, hn, hnn⟩ := hg
    rw [heapLetters_cons, List.nodup_append] at hn
    obtain ⟨hn1, hn2, hdisj⟩ := hn
    refine List.Nodup.cons ?_ (ih ⟨(wtSorted_cons hs).2, hn2, fun u hu => hnn u (by simp [hu])⟩)
    intro hxt
    obtain ⟨c, hc⟩ := List.exists_mem_of_ne_nil _ (hnn x (by simp))
    exact hdisj hc (letters_mem_heapLetters hxt hc)

theorem grow_letters {x y : CNode} {rr : List CNode}
    (hg : GoodHeap (x :: y :: rr)) {u : CNode} (hu : u = x ∨ u = y) :
    ∀ m, 1 ≤ m → ∃ ψ ∈ heapAtN (x :: y :: rr) m,
      (∃ c, c ∈ u.letters ∧ c ∈ ψ.letters) ∧
        u.letters.length < ψ.letters.length := by
  have humem : u ∈ x :: y :: rr := by rcases hu with rfl | rfl <;> simp
  obtain ⟨c, hc⟩ := List.exists_mem_of_ne_nil _ (hg.nonnil u humem)
  have hxlen : 1 ≤ x.letters.length :=
    List.length_pos.mpr (hg.nonnil x (by simp))
  have hylen : 1 ≤ y.letters.length :=
    List.length_pos.mpr (hg.nonnil y (by simp))
  intro m
  induction m with
  | zero => omega
  | succ m ih =>
    intro _
    rcases Nat.eq_zero_or_pos m with rfl | hm
    · refine ⟨.count (x.wt + y.wt) y x, ?_, ⟨c, hc, ?_⟩, ?_⟩
      · show _ ∈ heapStep (x :: y :: rr)
        exact mem_heapPush_iff.mpr (Or.inl rfl)
      · show c ∈ y.letters ++ x.letters
        rw [List.mem_append]
        rcases hu with rfl | rfl
        · exact Or.inr hc
        · exact Or.inl hc
      · show u.letters.length < (y.letters ++ x.letters).length
        rw [List.length_append]
        rcases hu with rfl | rfl <;> omega
    · obtain ⟨ψ, hmem, ⟨c', hc'⟩, hlt⟩ := ih hm
      have hstep : heapAtN (x :: y :: rr) (m + 1) = heapStep (heapAtN (x :: y :: rr) m) :=
        rfl
      rcases hmid : heapAtN (x :: y :: rr) m with _ | ⟨z1, l2⟩
      · rw [hmid] at hmem; simp at hmem
      · rcases l2 with _ | ⟨z2, rr2⟩
        · rw [hmid] at hmem
          rw [hstep, hmid]
          refine ⟨ψ, ?_, ⟨c', hc'⟩, hlt⟩
          exact hmem
        · rw [hmid] at hmem
          rw [hstep, hmid]
          rcases List.mem_cons.mp hmem with he1 | hmem2
          · refine ⟨.count (z1.wt + z2.wt) z2 z1, mem_heapPush_iff.mpr (Or.inl rfl),
              ⟨c', hc'.1, ?_⟩, ?_⟩
            · show c' ∈ z2.letters ++ z1.letters
              rw [List.mem_append]
              exact Or.inr (he1 ▸ hc'.2)
            · show u.letters.length < (z2.letters ++ z1.letters).length
              rw [List.length_append]
              have hψz : ψ.letters.length = z1.letters.length := by rw [he1]
              omega
          · rcases List.mem_cons.mp hmem2 with he2 | hmem3
            · refine ⟨.count (z1.wt + z2.wt) z2 z1, mem_heapPush_iff.mpr (Or.inl rfl),
                ⟨c', hc'.1, ?_⟩, ?_⟩
              · show c' ∈ z2.letters ++ z1.letters
                rw [List.mem_append]
                exact Or.inl (he2 ▸ hc'.2)
              · show u.letters.length < (z2.letters ++ z1.letters).length
                rw [List.length_append]
                have hψz : ψ.letters.length = z2.letters.length := by rw [he2]
                omega
            · exact ⟨ψ, mem_heapPush_iff.mpr (Or.inr hmem3), ⟨c', hc'⟩, hlt⟩

theorem not_mem_after_pop {h : List CNode} (hg : GoodHeap h) {i : Nat}
    {x y : CNode} {rr : List CNode} (hi : heapAtN h i = x :: y :: rr)
    {u : CNode} (hu : u = x ∨ u = y) :
    ∀ j, i < j → u ∉ heapAtN h j := by
  intro j hij humem
  have hgi : GoodHeap (x :: y :: rr) := hi ▸ goodHeap_heapAtN hg i
  obtain ⟨m, rfl⟩ : ∃ m, j = i + m := ⟨j - i, by omega⟩
  have hm : 1 ≤ m := by omega
  obtain ⟨ψ, hmem, ⟨c, hcu, hcψ⟩, hlt⟩ := grow_letters hgi hu m hm
  have hrew : heapAtN h (i + m) = heapAtN (x :: y :: rr) m := by
    rw [heapAtN_add, hi]
  rw [hrew] at humem
  have hgm : GoodHeap (heapAtN (x :: y :: rr) m) := goodHeap_heapAtN hgi m
  have hne : u ≠ ψ := by
    intro heq
    rw [heq] at hlt
    omega
  exact heap_shared_letter hgm.nodup humem hmem hne hcu hcψ

theorem poppedAt_mem {h : List CNode} {k : Nat} {u : CNode}
    (hp : PoppedAt h k u) : u ∈ heapAtN h k := by
  obtain ⟨x, y, rr, hk, hu⟩ := hp
  rw [hk]
  rcases hu with rfl | rfl <;> simp

theorem poppedAt_unique {h : List CNode} (hg : GoodHeap h) {k k' : Nat} {u : CNode}
    (h1 : PoppedAt h k u) (h2 : PoppedAt h k' u) : k = k' := by
  have aux : ∀ {a b : Nat}, a < b → PoppedAt h a u → PoppedAt h b u → False := by
    intro a b hab ⟨x, y, rr, ha, hu⟩ hb
    exact not_mem_after_pop hg ha hu b hab (poppedAt_mem hb)
  rcases lt_trichotomy k k' with hlt | heq | hgt
  · exact absurd (aux hlt h1 h2) (by simp)
  · exact heq
  · exact absurd (aux hgt h2 h1) (by simp)

theorem mem_le_pop {h : List CNode} (hg : GoodHeap h) {i j : Nat} {u : CNode}
    (hmem : u ∈ heapAtN h i) (hp : PoppedAt h j u) : i ≤ j := by
  by_contra hc
  obtain ⟨x, y, rr, hj, hu⟩ := hp
  exact not_mem_after_pop hg hj hu i (by omega) hmem

theorem alive_of_not_popped {h : List CNode} :
    ∀ (m : Nat) {i : Nat} {u : CNode}, u ∈ heapAtN h i →
      (∀ k, i ≤ k → k < i + m → ¬ PoppedAt h k u) → u ∈ heapAtN h (i + m) := by
  intro m
  induction m with
  | zero => intro i u hmem _; exact hmem
  | succ m ih =>
    intro i u hmem hnp
    have hmid : u ∈ heapAtN h (i + m) := ih hmem (fun k h1 h2 => hnp k h1 (by omega))
    have hrew : i + (m + 1) = (i + m) + 1 := rfl
    rw [hrew]
    show u ∈ heapStep (heapAtN h (i + m))
    rcases hg : heapAtN h (i + m) with _ | ⟨z1, l2⟩
    · rw [hg] at hmid; simp at hmid
    · rcases l2 with _ | ⟨z2, rr2⟩
      · rw [hg] at hmid
        exact hmid
      · rw [hg] at hmid
        have hnpm : ¬ PoppedAt h (i + m) u := hnp (i + m) (by omega) (by omega)
        have hu1 : u ≠ z1 := fun he => hnpm ⟨z1, z2, rr2, hg, Or.inl he⟩
        have hu2 : u ≠ z2 := fun he => hnpm ⟨z1, z2, rr2, hg, Or.inr he⟩
        rcases List.mem_cons.mp hmid with he | hmid2
        · exact absurd he hu1
        · rcases List.mem_cons.mp hmid2 with he | hmid3
          · exact absurd he hu2
          · exact mem_heapPush_iff.mpr (Or.inr hmid3)

theorem created_of_appear {h : List CNode} {t : Nat} {u : CNode}
    (hno : u ∉ heapAtN h t) (hyes : u ∈ heapAtN h (t + 1)) : CreatedAt h t u := by
  have hstep : heapAtN h (t + 1) = heapStep (heapAtN h t) := rfl
  rcases hg : heapAtN h t with _ | ⟨z1, l2⟩
  · rw [hstep, hg] at hyes; simp [heapStep] at hyes
  · rcases l2 with _ | ⟨z2, rr2⟩
    · rw [hstep, hg] at hyes
      rw [hg] at hno
      exact absurd hyes hno
    · rw [hstep, hg] at hyes
      rcases mem_heapPush_iff.mp hyes with rfl | hmem
      · exact ⟨z1, z2, rr2, hg, rfl⟩
      · rw [hg] at hno
        exact absurd (by simp [hmem] : u ∈ z1 :: z2 :: rr2) hno

theorem created_of_first_appear {h : List CNode} :
    ∀ (m : Nat) {j : Nat} {u : CNode}, u ∉ heapAtN h j →
      u ∈ heapAtN h (j + m + 1) → ∃ t, j ≤ t ∧ t ≤ j + m ∧ CreatedAt h t u := by
  intro m
  induction m with
  | zero =>
    intro j u hno hyes
    exact ⟨j, le_refl j, by omega, created_of_appear hno hyes⟩
  | succ m ih =>
    intro j u hno hyes
    by_cases hmid : u ∈ heapAtN h (j + m + 1)
    · obtain ⟨t, h1, h2, h3⟩ := ih hno hmid
      exact ⟨t, h1, by omega, h3⟩
    · have hrew : j + (m + 1) + 1 = (j + m + 1) + 1 := by omega
      rw [hrew] at hyes
      exact ⟨j + m + 1, by omega, by omega, created_of_appear hmid hyes⟩

theorem pairwt_step {h : List CNode} (hg : GoodHeap h) {k : Nat}
    {x y x' y' : CNode} {rr rr' : List CNode}
    (h1 : heapAtN h k = x :: y :: rr) (h2 : heapAtN h (k + 1) = x' :: y' :: rr') :
    x.wt + y.wt ≤ x'.wt + y'.wt := by
  have hstep : heapAtN h (k + 1) = heapStep (heapAtN h k) := rfl
  rw [hstep, h1] at h2
  have h2' : heapPush (CNode.count (x.wt + y.wt) y x) rr = x' :: y' :: rr' := h2
  have hgk : GoodHeap (x :: y :: rr) := h1 ▸ goodHeap_heapAtN hg k
  obtain ⟨hx, hs'⟩ := wtSorted_cons hgk.sorted
  obtain ⟨hy, _⟩ := wtSorted_cons hs'
  have hxy : x.wt ≤ y.wt := hx y (by simp)
  have hbound : ∀ z ∈ heapPush (CNode.count (x.wt + y.wt) y x) rr, y.wt ≤ z.wt := by
    intro z hz
    rcases mem_heapPush_iff.mp hz with rfl | hz
    · show y.wt ≤ x.wt + y.wt
      omega
    · exact hy z hz
  have hx' : y.wt ≤ x'.wt := hbound x' (by rw [h2']; simp)
  have hy' : y.wt ≤ y'.wt := hbound y' (by rw [h2']; simp)
  omega

theorem pairwt_mono {h : List CNode} (hg : GoodHeap h) (hne : 1 ≤ h.length) :
    ∀ (d : Nat) {t : Nat} {x y x' y' : CNode} {rr rr' : List CNode},
      heapAtN h t = x :: y :: rr → heapAtN h (t + d) = x' :: y' :: rr' →
      x.wt + y.wt ≤ x'.wt + y'.wt := by
  intro d
  induction d with
  | zero =>
    intro t x y x' y' rr rr' h1 h2
    rw [Nat.add_zero, h1] at h2
    injection h2 with e1 h2
    injection h2 with e2 _
    rw [e1, e2]
  | succ d ih =>
    intro t x y x' y' rr rr' h1 h2
    have hrew : t + (d + 1) = (t + d) + 1 := rfl
    rw [hrew] at h2
    have hlen2 : (heapAtN h ((t + d) + 1)).length = max (h.length - ((t + d) + 1)) 1 :=
      length_heapAtN hne _
    rw [h2] at hlen2
    simp only [List.length_cons] at hlen2
    have hlenmid : (heapAtN h (t + d)).length = max (h.length - (t + d)) 1 :=
      length_heapAtN hne _
    rcases hmid : heapAtN h (t + d) with _ | ⟨z1, l2⟩
    · rw [hmid] at hlenmid; simp at hlenmid; omega
    · rcases l2 with _ | ⟨z2, rr2⟩
      · rw [hmid] at hlenmid
        simp only [List.length_cons, List.length_nil] at hlenmid
        omega
      · exact le_trans (ih h1 hmid) (pairwt_step hg hmid h2)

theorem sub_heapPush (n : CNode) (l : List CNode) : List.Sublist l (heapPush n l) := by
  induction l with
  | nil => exact List.nil_sublist _
  | cons x t ih =>
    rw [heapPush]
    split
    · exact List.Sublist.cons₂ x ih
    · exact List.Sublist.cons n (List.Sublist.refl _)

theorem pair_sublist_cons {u v x : CNode} {l : List CNode}
    (hs : List.Sublist [u, v] (x :: l)) (hne : u ≠ x) : List.Sublist [u, v] l := by
  cases hs with
  | cons _ h => exact h
  | cons₂ _ h => exact absurd rfl hne

theorem stable_insert {l : List CNode} {u n : CNode} (hs : wtSorted l) (hu : u ∈ l)
    (hle : u.wt ≤ n.wt) : List.Sublist [u, n] (heapPush n l) := by
  induction l with
  | nil => simp at hu
  | cons x t ih =>
    obtain ⟨hx, ht⟩ := wtSorted_cons hs
    rw [heapPush]
    split
    case isTrue hxle =>
      rcases List.mem_cons.mp hu with rfl | hut
      · exact List.Sublist.cons₂ u
          (List.singleton_sublist.mpr (mem_heapPush_iff.mpr (Or.inl rfl)))
      · exact List.Sublist.cons x (ih ht hut)
    case isFalse hxgt =>
      exfalso
      rcases List.mem_cons.mp hu with rfl | hut
      · omega
      · have := hx u hut
        omega

theorem fifo_aux {h : List CNode} (hg : GoodHeap h) :
    ∀ (m : Nat) {i : Nat} {u v : CNode}, List.Sublist [u, v] (heapAtN h i) →
      PoppedAt h (i + m) v → ∃ k, k ≤ i + m ∧ PoppedAt h k u := by
  intro m
  induction m with
  | zero =>
    intro i u v hsub hpv
    by_cases huv : u = v
    · exact ⟨i, le_refl _, huv ▸ (by rw [Nat.add_zero] at hpv; exact hpv)⟩
    · rw [Nat.add_zero] at hpv
      obtain ⟨x, y, rr, hi, hv⟩ := hpv
      rw [hi] at hsub
      have hnd : (x :: y :: rr).Nodup := hi ▸ goodHeap_nodup (goodHeap_heapAtN hg i)
      rcases hv with rfl | rfl
      · cases hsub with
        | cons₂ _ hrest => exact absurd rfl huv
        | cons _ hrest =>
          exfalso
          have hvm : v ∈ y :: rr := hrest.subset (by simp)
          rw [List.nodup_cons] at hnd
          exact hnd.1 hvm
      · cases hsub with
        | cons₂ _ hrest =>
          exact ⟨i, le_refl _, u, v, rr, hi, Or.inl rfl⟩
        | cons _ hrest =>
          cases hrest with
          | cons₂ _ hrest2 => exact absurd rfl huv
          | cons _ hrest2 =>
            exfalso
            have hvm : v ∈ rr := hrest2.subset (by simp)
            rw [List.nodup_cons, List.nodup_cons] at hnd
            exact hnd.2.1 hvm
  | succ m ih =>
    intro i u v hsub hpv
    by_cases hui : PoppedAt h i u
    · exact ⟨i, by omega, hui⟩
    · have humem : u ∈ heapAtN h i := hsub.subset (by simp)
      have hvmem : v ∈ heapAtN h i := hsub.subset (by simp)
      have hvni : ¬ PoppedAt h i v := by
        intro hvp
        have := poppedAt_unique hg hvp hpv
        omega
      rcases hgi : heapAtN h i with _ | ⟨z1, l2⟩
      · rw [hgi] at humem; simp at humem
      · rcases l2 with _ | ⟨z2, rr2⟩
        · exfalso
          rw [hgi] at hsub
          have := hsub.length_le
          simp at this
        · have hu1 : u ≠ z1 := fun he => hui ⟨z1, z2, rr2, hgi, Or.inl he⟩
          have hu2 : u ≠ z2 := fun he => hui ⟨z1, z2, rr2, hgi, Or.inr he⟩
          have hv1 : v ≠ z1 := fun he => hvni ⟨z1, z2, rr2, hgi, Or.inl he⟩
          rw [hgi] at hsub
          have hsub2 : List.Sublist [u, v] rr2 :=
            pair_sublist_cons (pair_sublist_cons hsub hu1) hu2
          have hsub3 : List.Sublist [u, v] (heapAtN h (i + 1)) := by
            have hstep : heapAtN h (i + 1) = heapStep (heapAtN h i) := rfl
            rw [hstep, hgi]
            exact hsub2.trans (sub_heapPush _ _)
          have hrew : i + (m + 1) = (i + 1) + m := by omega
          rw [hrew] at hpv
          obtain ⟨k, hk, hpk⟩ := ih hsub3 hpv
          exact ⟨k, by omega, hpk⟩

theorem fifo {h : List CNode} (hg : GoodHeap h) {i j : Nat} {u v : CNode}
    (hsub : List.Sublist [u, v] (heapAtN h i)) (hpv : PoppedAt h j v) :
    ∃ k, k ≤ j ∧ PoppedAt h k u := by
  have hvmem : v ∈ heapAtN h i := hsub.subset (by simp)
  have hij : i ≤ j := mem_le_pop hg hvmem hpv
  obtain ⟨m, rfl⟩ : ∃ m, j = i + m := ⟨j - i, by omega⟩
  exact fifo_aux hg m hsub hpv

theorem ord_pop {h : List CNode} (hg : GoodHeap h) (hne : 1 ≤ h.length)
    {i j : Nat} {u v : CNode} (hpu : PoppedAt h i u) (hpv : PoppedAt h j v)
    (hwt : u.wt < v.wt) : i ≤ j := by
  by_contra hc
  have hji : j < i := by omega
  obtain ⟨x, y, rr, hj, hv⟩ := hpv
  by_cases hmem : u ∈ heapAtN h j
  · have hu1 : u ≠ x := by
      intro he
      have := poppedAt_unique hg hpu ⟨x, y, rr, hj, Or.inl he⟩
      omega
    have hu2 : u ≠ y := by
      intro he
      have := poppedAt_unique hg hpu ⟨x, y, rr, hj, Or.inr he⟩
      omega
    have hgj : GoodHeap (x :: y :: rr) := hj ▸ goodHeap_heapAtN hg j
    obtain ⟨hx, hs'⟩ := wtSorted_cons hgj.sorted
    obtain ⟨hy, _⟩ := wtSorted_cons hs'
    rw [hj] at hmem
    rcases List.mem_cons.mp hmem with he | hmem2
    · exact hu1 he
    · rcases List.mem_cons.mp hmem2 with he | hmem3
      · exact hu2 he
      · rcases hv with rfl | rfl
        · have := hx u (by simp [hmem3])
          omega
        · have := hy u hmem3
          omega
  · have humem : u ∈ heapAtN h i := poppedAt_mem hpu
    obtain ⟨m, hm⟩ : ∃ m, i = j + m + 1 := ⟨i - j - 1, by omega⟩
    rw [hm] at humem
    obtain ⟨t, hjt, hti, hcr⟩ := created_of_first_appear m hmem humem
    obtain ⟨xt, yt, rrt, ht, hu⟩ := hcr
    have hwu : u.wt = xt.wt + yt.wt := by rw [hu]; rfl
    obtain ⟨d, rfl⟩ : ∃ d, t = j + d := ⟨t - j, by omega⟩
    have hmono : x.wt + y.wt ≤ xt.wt + yt.wt := pairwt_mono hg hne d hj ht
    have hvb : v.wt ≤ x.wt + y.wt := by
      rcases hv with rfl | rfl <;> omega
    omega

theorem created_mem_next {h : List CNode} {t : Nat} {P : CNode}
    (hc : CreatedAt h t P) : P ∈ heapAtN h (t + 1) := by
  obtain ⟨x, y, rr, ht, hP⟩ := hc
  have hstep : heapAtN h (t + 1) = heapStep (heapAtN h t) := rfl
  rw [hstep, ht]
  exact mem_heapPush_iff.mpr (Or.inl hP)

theorem created_children_popped {h : List CNode} {t : Nat} {w : Nat} {l r : CNode}
    (hc : CreatedAt h t (CNode.count w l r)) : PoppedAt h t l ∧ PoppedAt h t r := by
  obtain ⟨x, y, rr, ht, hP⟩ := hc
  injection hP with e1 e2 e3
  exact ⟨⟨x, y, rr, ht, Or.inr e2⟩, ⟨x, y, rr, ht, Or.inl e3⟩⟩

theorem created_lt_pop {h : List CNode} (hg : GoodHeap h) {t p : Nat} {P : CNode}
    (hc : CreatedAt h t P) (hp : PoppedAt h p P) : t < p := by
  by_contra hle
  obtain ⟨x, y, rr, hps, hu⟩ := hp
  exact not_mem_after_pop hg hps hu (t + 1) (by omega) (created_mem_next hc)

theorem created_unique {h : List CNode} (hg : GoodHeap h) {t t' : Nat} {P : CNode}
    (h1 : CreatedAt h t P) (h2 : CreatedAt h t' P) : t = t' := by
  obtain ⟨x, y, rr, ht, hP⟩ := h1
  obtain ⟨x', y', rr', ht', hP'⟩ := h2
  rw [hP] at hP'
  injection hP' with e1 e2 e3
  exact poppedAt_unique hg ⟨x, y, rr, ht, Or.inl rfl⟩ ⟨x', y', rr', ht', Or.inl e3⟩

theorem created_wt_mono {h : List CNode} (hg : GoodHeap h) (hne : 1 ≤ h.length)
    {t t' : Nat} {P Q : CNode} (h1 : CreatedAt h t P) (h2 : CreatedAt h t' Q)
    (htt : t ≤ t') : P.wt ≤ Q.wt := by
  obtain ⟨x, y, rr, ht, hP⟩ := h1
  obtain ⟨x', y', rr', ht', hQ⟩ := h2
  obtain ⟨d, rfl⟩ : ∃ d, t' = t + d := ⟨t' - t, by omega⟩
  have := pairwt_mono hg hne d ht ht'
  rw [hP, hQ]
  show x.wt + y.wt ≤ x'.wt + y'.wt
  exact this

theorem pop_bound {h : List CNode} (hne : 1 ≤ h.length) {k : Nat} {u : CNode}
    (hp : PoppedAt h k u) : k + 2 ≤ h.length := by
  obtain ⟨x, y, rr, hk, _⟩ := hp
  have := length_heapAtN hne k
  rw [hk] at this
  simp only [List.length_cons] at this
  omega

theorem heapAtN_last :
    ∀ (k : Nat) (h : List CNode), h.length ≤ k → 1 ≤ h.length →
      heapAtN h (h.length - 1) = [mergeLoop h] := by
  intro k
  induction k with
  | zero => intro h hk h1; omega
  | succ k ih =>
    intro h hk h1
    match h with
    | [t] => rfl
    | a :: b :: r =>
      have hlen : (a :: b :: r).length - 1 = ((heapPush (CNode.count (a.wt + b.wt) b a) r).length - 1) + 1 := by
        rw [length_heapPush]
        simp
      rw [hlen, heapAtN_succ_front]
      have hstep : heapStep (a :: b :: r) = heapPush (CNode.count (a.wt + b.wt) b a) r := rfl
      rw [hstep]
      rw [ih _ (by rw [length_heapPush]; simp only [List.length_cons] at hk; omega)
        (by rw [length_heapPush]; omega)]
      rw [mergeLoop_cons₂]

theorem root_created {h : List CNode} (h2 : 2 ≤ h.length) :
    CreatedAt h (h.length - 2) (mergeLoop h) := by
  have h1 : 1 ≤ h.length := by omega
  have hlen : (heapAtN h (h.length - 2)).length = 2 := by
    rw [length_heapAtN h1]
    omega
  rcases hst : heapAtN h (h.length - 2) with _ | ⟨x, l2⟩
  · rw [hst] at hlen; simp at hlen
  · rcases l2 with _ | ⟨y, rr⟩
    · rw [hst] at hlen; simp at hlen
    · rcases rr with _ | ⟨z, rr2⟩
      · have hrew : h.length - 1 = (h.length - 2) + 1 := by omega
        have hlast : heapAtN h (h.length - 1) = [mergeLoop h] :=
          heapAtN_last h.length h (le_refl _) h1
        rw [hrew] at hlast
        have hstep : heapAtN h ((h.length - 2) + 1) = heapStep (heapAtN h (h.length - 2)) :=
          rfl
        rw [hstep, hst] at hlast
        have hpush : heapStep [x, y] = [CNode.count (x.wt + y.wt) y x] := rfl
        rw [hpush] at hlast
        injection hlast with e1 _
        exact ⟨x, y, [], hst, e1.symm⟩
      · rw [hst] at hlen; simp at hlen

theorem popcmp {h : List CNode} (hg : GoodHeap h) (hne : 1 ≤ h.length)
    {t t' p q : Nat} {P Q : CNode} (hcP : CreatedAt h t P) (hcQ : CreatedAt h t' Q)
    (htt : t ≤ t') (hpP : PoppedAt h p P) (hpQ : PoppedAt h q Q) : p ≤ q := by
  rcases Nat.lt_or_ge t t' with htlt | htge
  · have hwle : P.wt ≤ Q.wt := created_wt_mono hg hne hcP hcQ htt
    rcases Nat.lt_or_ge p (t' + 1) with hple | hpge
    · have := created_lt_pop hg hcQ hpQ
      omega
    · rcases Nat.lt_or_ge P.wt Q.wt with hwlt | hweq2
      · exact ord_pop hg hne hpP hpQ hwlt
      · have hweq : P.wt = Q.wt := by omega
        have hPmem : P ∈ heapAtN h (t' + 1) := by
          have hbase : P ∈ heapAtN h (t + 1) := created_mem_next hcP
          obtain ⟨m, hm⟩ : ∃ m, t' + 1 = (t + 1) + m := ⟨t' - t, by omega⟩
          rw [hm]
          refine alive_of_not_popped m hbase ?_
          intro k hk1 hk2 hpk
          have := poppedAt_unique hg hpk hpP
          omega
        obtain ⟨x', y', rr', ht', hQ⟩ := hcQ
        have hstep : heapAtN h (t' + 1) = heapStep (heapAtN h t') := rfl
        rw [hstep, ht'] at hPmem
        have hPmem2 : P ∈ heapPush Q rr' := by
          have : heapStep (x' :: y' :: rr') = heapPush (CNode.count (x'.wt + y'.wt) y' x') rr' := rfl
          rw [this] at hPmem
          rw [hQ]
          exact hPmem
        rcases mem_heapPush_iff.mp hPmem2 with heq | hPrr
        · have : p = q := poppedAt_unique hg hpP (heq ▸ hpQ)
          omega
        · have hgt' : GoodHeap (x' :: y' :: rr') := ht' ▸ goodHeap_heapAtN hg t'
          have hsrr : wtSorted rr' := (wtSorted_cons (wtSorted_cons hgt'.sorted).2).2
          have hsub : List.Sublist [P, Q] (heapPush Q rr') :=
            stable_insert hsrr hPrr (by omega)
          have hsub2 : List.Sublist [P, Q] (heapAtN h (t' + 1)) := by
            rw [hstep, ht']
            have : heapStep (x' :: y' :: rr') = heapPush (CNode.count (x'.wt + y'.wt) y' x') rr' := rfl
            rw [this, ← hQ]
            exact hsub
          obtain ⟨k, hkq, hpk⟩ := fifo hg hsub2 hpQ
          have : k = p := poppedAt_unique hg hpk hpP
          omega
  · have ht'' : t = t' := by omega
    subst ht''
    obtain ⟨x, y, rr, ht, hP⟩ := hcP
    obtain ⟨x', y', rr', ht2, hQ⟩ := hcQ
    rw [ht] at ht2
    injection ht2 with e1 e2'
    injection e2' with e2 e3
    have hPQ : P = Q := by rw [hP, hQ, e1, e2]
    have : p = q := poppedAt_unique hg hpP (hPQ ▸ hpQ)
    omega

theorem subAt_empty : ∀ (q : List Bool), subAt .empty q = .empty := by
  intro q
  cases q <;> rfl

theorem subAt_nil (t : CNode) : subAt t [] = t := by
  cases t <;> rfl

theorem subAt_append (t : CNode) :
    ∀ (p p' : List Bool), subAt t (p ++ p') = subAt (subAt t p) p' := by
  intro p
  induction p generalizing t with
  | nil => intro p'; rw [subAt_nil, List.nil_append]
  | cons d ds ih =>
    intro p'
    match t with
    | .count n l r =>
      show subAt (if d then r else l) (ds ++ p') = _
      rw [ih]
      rfl
    | .empty =>
      show CNode.empty = subAt (subAt .empty (d :: ds)) p'
      rw [subAt_empty, subAt_empty]
    | .huff c n l r =>
      show CNode.empty = subAt (subAt (.huff c n l r) (d :: ds)) p'
      show CNode.empty = subAt .empty p'
      rw [subAt_empty]

theorem path_count {c : Char} {n : Nat} {cl cr : CNode} :
    ∀ (q : List Bool) (t : CNode), subAt t q = .huff c n cl cr →
      ∀ k, k < q.length → ∃ w l r, subAt t (q.take k) = .count w l r := by
  intro q
  induction q with
  | nil => intro t _ k hk; simp at hk
  | cons d ds ih =>
    intro t hleaf k hk
    match t with
    | .empty =>
      rw [subAt_empty] at hleaf
      exact absurd hleaf (by simp)
    | .huff c' n' l' r' =>
      exact absurd hleaf (by simp [subAt])
    | .count w l r =>
      match k with
      | 0 => exact ⟨w, l, r, rfl⟩
      | k' + 1 =>
        have hstep : subAt (.count w l r) (d :: ds) = subAt (if d then r else l) ds := rfl
        rw [hstep] at hleaf
        have htake : (d :: ds).take (k' + 1) = d :: ds.take k' := rfl
        rw [htake]
        have hstep2 : subAt (.count w l r) (d :: ds.take k') =
            subAt (if d then r else l) (ds.take k') := rfl
        rw [hstep2]
        exact ih _ hleaf k' (by simp at hk; omega)

theorem recs_path :
    ∀ (t : CNode) (bits : List Char) (c : Char) (b : List Char),
      (c, b) ∈ recs t bits →
      ∃ q : List Bool, b = bits ++ q.map (fun d => if d then '1' else '0') ∧
        ∃ n cl cr, subAt t q = .huff c n cl cr := by
  intro t
  induction t with
  | empty => intro bits c b hb; simp [recs] at hb
  | count n l r ihl ihr =>
    intro bits c b hb
    rw [recs] at hb
    rcases List.mem_append.mp hb with hb | hb
    · obtain ⟨q, hq, n', cl, cr, hsub⟩ := ihl _ c b hb
      refine ⟨false :: q, ?_, n', cl, cr, ?_⟩
      · rw [hq, List.map_cons, List.append_assoc]
        rfl
      · show subAt l q = _
        exact hsub
    · obtain ⟨q, hq, n', cl, cr, hsub⟩ := ihr _ c b hb
      refine ⟨true :: q, ?_, n', cl, cr, ?_⟩
      · rw [hq, List.map_cons, List.append_assoc]
        rfl
      · show subAt r q = _
        exact hsub
  | huff ch n l r _ _ =>
    intro bits c b hb
    rw [recs, List.mem_singleton] at hb
    injection hb with h1 h2
    exact ⟨[], by rw [h2]; simp, n, l, r, by rw [h1, subAt_nil]⟩

theorem take_succ_get :
    ∀ (q : List Bool) (k : Nat) (hk : k < q.length),
      q.take (k + 1) = q.take k ++ [q.get ⟨k, hk⟩] := by
  intro q
  induction q with
  | nil => intro k hk; simp at hk
  | cons d ds ih =>
    intro k hk
    match k with
    | 0 => rfl
    | k' + 1 =>
      show d :: ds.take (k' + 1) = d :: ds.take k' ++ _
      rw [ih k' (by simp at hk; omega)]
      rfl

theorem created_child_pop {h : List CNode} {F : CNode} {q : List Bool}
    {k t : Nat} {w : Nat} {l r : CNode} (hk : k < q.length)
    (hsub : subAt F (q.take k) = .count w l r)
    (hc : CreatedAt h t (.count w l r)) :
    PoppedAt h t (subAt F (q.take (k + 1))) := by
  obtain ⟨hpl, hpr⟩ := created_children_popped hc
  rw [take_succ_get q k hk, subAt_append, hsub]
  have hchild : subAt (CNode.count w l r) [q.get ⟨k, hk⟩] =
      subAt (if q.get ⟨k, hk⟩ then r else l) [] := rfl
  rw [hchild]
  by_cases hd : q.get ⟨k, hk⟩
  · rw [if_pos hd, subAt_nil]
    exact hpr
  · rw [if_neg hd, subAt_nil]
    exact hpl

theorem count_sub_created {h : List CNode}
    (hhuff : ∀ u ∈ h, ∃ c n, u = CNode.huff c n .empty .empty) :
    ∀ (k : Nat) (w : CNode), w ∈ heapAtN h k →
      ∀ (q : List Bool) (n : Nat) (l r : CNode),
        subAt w q = .count n l r → ∃ t, t < k ∧ CreatedAt h t (.count n l r) := by
  intro k
  induction k with
  | zero =>
    intro w hw q n l r hsub
    obtain ⟨c, m, rfl⟩ := hhuff w hw
    exfalso
    match q with
    | [] => simp [subAt] at hsub
    | d :: ds =>
      have : subAt (CNode.huff c m .empty .empty) (d :: ds) = .empty := rfl
      rw [this] at hsub
      simp at hsub
  | succ k ih =>
    intro w hw q n l r hsub
    have hstep : heapAtN h (k + 1) = heapStep (heapAtN h k) := rfl
    rw [hstep] at hw
    rcases hst : heapAtN h k with _ | ⟨z1, l2⟩
    · rw [hst] at hw; simp [heapStep] at hw
    · rcases l2 with _ | ⟨z2, rr2⟩
      · rw [hst] at hw
        obtain ⟨t, ht, hc⟩ := ih w (by rw [hst]; exact hw) q n l r hsub
        exact ⟨t, by omega, hc⟩
      · rw [hst] at hw
        rcases mem_heapPush_iff.mp hw with rfl | hmem
        · match q with
          | [] =>
            injection hsub with e1 e2 e3
            exact ⟨k, by omega, z1, z2, rr2, hst, by rw [e1, e2, e3]⟩
          | d :: ds =>
            have hq : subAt (CNode.count (z1.wt + z2.wt) z2 z1) (d :: ds) =
                subAt (if d then z1 else z2) ds := rfl
            rw [hq] at hsub
            by_cases hd : d
            · rw [if_pos hd] at hsub
              obtain ⟨t, ht, hc⟩ := ih z1 (by rw [hst]; simp) ds n l r hsub
              exact ⟨t, by omega, hc⟩
            · rw [if_neg hd] at hsub
              obtain ⟨t, ht, hc⟩ := ih z2 (by rw [hst]; simp) ds n l r hsub
              exact ⟨t, by omega, hc⟩
        · obtain ⟨t, ht, hc⟩ := ih w (by rw [hst]; simp [hmem]) q n l r hsub
          exact ⟨t, by omega, hc⟩

theorem huff_sub_mem {h : List CNode}
    (hhuff : ∀ u ∈ h, ∃ c n, u = CNode.huff c n .empty .empty) :
    ∀ (k : Nat) (w : CNode), w ∈ heapAtN h k →
      ∀ (q : List Bool) (c : Char) (n : Nat) (cl cr : CNode),
        subAt w q = .huff c n cl cr → CNode.huff c n cl cr ∈ h := by
  intro k
  induction k with
  | zero =>
    intro w hw q c n cl cr hsub
    match q with
    | [] => rw [subAt_nil] at hsub; exact hsub ▸ hw
    | d :: ds =>
      exfalso
      obtain ⟨c', m, rfl⟩ := hhuff w hw
      have : subAt (CNode.huff c' m .empty .empty) (d :: ds) = .empty := rfl
      rw [this] at hsub
      simp at hsub
  | succ k ih =>
    intro w hw q c n cl cr hsub
    have hstep : heapAtN h (k + 1) = heapStep (heapAtN h k) := rfl
    rw [hstep] at hw
    rcases hst : heapAtN h k with _ | ⟨z1, l2⟩
    · rw [hst] at hw; simp [heapStep] at hw
    · rcases l2 with _ | ⟨z2, rr2⟩
      · rw [hst] at hw
        exact ih w (by rw [hst]; exact hw) q c n cl cr hsub
      · rw [hst] at hw
        rcases mem_heapPush_iff.mp hw with rfl | hmem
        · match q with
          | [] => simp [subAt] at hsub
          | d :: ds =>
            have hq : subAt (CNode.count (z1.wt + z2.wt) z2 z1) (d :: ds) =
                subAt (if d then z1 else z2) ds := rfl
            rw [hq] at hsub
            by_cases hd : d
            · rw [if_pos hd] at hsub
              exact ih z1 (by rw [hst]; simp) ds c n cl cr hsub
            · rw [if_neg hd] at hsub
              exact ih z2 (by rw [hst]; simp) ds c n cl cr hsub
        · exact ih w (by rw [hst]; simp [hmem]) q c n cl cr hsub

theorem mergeLoop_codes_mono {h : List CNode} (hg : GoodHeap h)
    (hhuff : ∀ u ∈ h, ∃ c n, u = CNode.huff c n .empty .empty)
    (h2 : 2 ≤ h.length) {c1 c2 : Char} {b1 b2 : List Char}
    (hx : (c1, b1) ∈ recs (mergeLoop h) []) (hy : (c2, b2) ∈ recs (mergeLoop h) []) :
    ∃ w1 w2 : Nat, CNode.huff c1 w1 .empty .empty ∈ h ∧
      CNode.huff c2 w2 .empty .empty ∈ h ∧
      (w2 < w1 → b1.length ≤ b2.length) := by
  have hlen1 : 1 ≤ h.length := by omega
  have hFmem : mergeLoop h ∈ heapAtN h (h.length - 1) := by
    rw [heapAtN_last h.length h (le_refl _) hlen1]
    simp
  obtain ⟨qx, hbx, nx, clx, crx, hsubx⟩ := recs_path (mergeLoop h) [] c1 b1 hx
  obtain ⟨qy, hby, ny, cly, cry, hsuby⟩ := recs_path (mergeLoop h) [] c2 b2 hy
  have hLxmem0 : CNode.huff c1 nx clx crx ∈ h :=
    huff_sub_mem hhuff (h.length - 1) (mergeLoop h) hFmem qx c1 nx clx crx hsubx
  have hLymem0 : CNode.huff c2 ny cly cry ∈ h :=
    huff_sub_mem hhuff (h.length - 1) (mergeLoop h) hFmem qy c2 ny cly cry hsuby
  obtain ⟨cx', mx', hex⟩ := hhuff _ hLxmem0
  obtain ⟨cy', my', hey⟩ := hhuff _ hLymem0
  injection hex with ex1 ex2 ex3 ex4
  injection hey with ey1 ey2 ey3 ey4
  subst ex3
  subst ex4
  subst ey3
  subst ey4
  refine ⟨nx, ny, hLxmem0, hLymem0, ?_⟩
  intro hwlt
  rw [hbx, hby, List.nil_append, List.nil_append, List.length_map, List.length_map]
  by_contra hcon
  have hdxy : qy.length < qx.length := by omega
  have hdy1 : 1 ≤ qy.length := by
    by_contra hdy0
    have hqy : qy = [] := by
      cases qy with
      | nil => rfl
      | cons a l => simp at hdy0
    rw [hqy, subAt_nil] at hsuby
    obtain ⟨n0, l0, r0, hcount⟩ := mergeLoop_isCount h.length h (le_refl _) h2
    rw [hcount] at hsuby
    simp at hsuby
  have chain : ∀ j, j < qy.length → ∀ s t : Nat,
      CreatedAt h s (subAt (mergeLoop h) (qy.take (qy.length - 1 - j))) →
      CreatedAt h t (subAt (mergeLoop h) (qx.take (qx.length - 1 - j))) → s ≤ t := by
    intro j
    induction j with
    | zero =>
      intro hj s t hcs hct
      obtain ⟨u1, u2, ur, hstu, hPequ⟩ := hcs
      obtain ⟨v1, v2, vr, hstv, hPeqv⟩ := hct
      have hcs2 : CreatedAt h s (CNode.count (u1.wt + u2.wt) u2 u1) :=
        ⟨u1, u2, ur, hstu, rfl⟩
      have hct2 : CreatedAt h t (CNode.count (v1.wt + v2.wt) v2 v1) :=
        ⟨v1, v2, vr, hstv, rfl⟩
      have hpy : PoppedAt h s (subAt (mergeLoop h) (qy.take ((qy.length - 1) + 1))) :=
        created_child_pop (by omega) hPequ hcs2
      have hpx : PoppedAt h t (subAt (mergeLoop h) (qx.take ((qx.length - 1) + 1))) :=
        created_child_pop (by omega) hPeqv hct2
      have ey : qy.length - 1 + 1 = qy.length := by omega
      have ex : qx.length - 1 + 1 = qx.length := by omega
      rw [ey, List.take_length, hsuby] at hpy
      rw [ex, List.take_length, hsubx] at hpx
      exact ord_pop hg hlen1 hpy hpx hwlt
    | succ j ihj =>
      intro hj s' t' hcs' hct'
      have hjy : j < qy.length := by omega
      obtain ⟨wY, lY, rY, hPY⟩ :=
        path_count qy (mergeLoop h) hsuby (qy.length - 1 - j) (by omega)
      obtain ⟨wX, lX, rX, hPX⟩ :=
        path_count qx (mergeLoop h) hsubx (qx.length - 1 - j) (by omega)
      obtain ⟨s, hs_lt, hcs0⟩ := count_sub_created hhuff (h.length - 1) (mergeLoop h)
        hFmem (qy.take (qy.length - 1 - j)) wY lY rY hPY
      obtain ⟨t, ht_lt, hct0⟩ := count_sub_created hhuff (h.length - 1) (mergeLoop h)
        hFmem (qx.take (qx.length - 1 - j)) wX lX rX hPX
      have hcsY : CreatedAt h s (subAt (mergeLoop h) (qy.take (qy.length - 1 - j))) := by
        rw [hPY]; exact hcs0
      have hctX : CreatedAt h t (subAt (mergeLoop h) (qx.take (qx.length - 1 - j))) := by
        rw [hPX]; exact hct0
      have hst : s ≤ t := ihj hjy s t hcsY hctX
      have ey1 : qy.length - 1 - (j + 1) = qy.length - 2 - j := by omega
      have ex1 : qx.length - 1 - (j + 1) = qx.length - 2 - j := by omega
      rw [ey1] at hcs'
      rw [ex1] at hct'
      obtain ⟨u1, u2, ur, hstu, hPequ⟩ := hcs'
      obtain ⟨v1, v2, vr, hstv, hPeqv⟩ := hct'
      have hcs2 : CreatedAt h s' (CNode.count (u1.wt + u2.wt) u2 u1) :=
        ⟨u1, u2, ur, hstu, rfl⟩
      have hct2 : CreatedAt h t' (CNode.count (v1.wt + v2.wt) v2 v1) :=
        ⟨v1, v2, vr, hstv, rfl⟩
      have hpy : PoppedAt h s' (subAt (mergeLoop h) (qy.take ((qy.length - 2 - j) + 1))) :=
        created_child_pop (by omega) hPequ hcs2
      have hpx : PoppedAt h t' (subAt (mergeLoop h) (qx.take ((qx.length - 2 - j) + 1))) :=
        created_child_pop (by omega) hPeqv hct2
      have ey2 : qy.length - 2 - j + 1 = qy.length - 1 - j := by omega
      have ex2 : qx.length - 2 - j + 1 = qx.length - 1 - j := by omega
      rw [ey2] at hpy
      rw [ex2] at hpx
      exact popcmp hg hlen1 hcsY hctX hst hpy hpx
  have hroot : CreatedAt h (h.length - 2)
      (subAt (mergeLoop h) (qy.take (qy.length - 1 - (qy.length - 1)))) := by
    have e5 : qy.length - 1 - (qy.length - 1) = 0 := by omega
    rw [e5]
    rw [List.take_zero, subAt_nil]
    exact root_created h2
  obtain ⟨wT, lT, rT, hPT⟩ :=
    path_count qx (mergeLoop h) hsubx (qx.length - 1 - (qy.length - 1)) (by omega)
  obtain ⟨t, ht_lt, hct0⟩ := count_sub_created hhuff (h.length - 1) (mergeLoop h)
    hFmem (qx.take (qx.length - 1 - (qy.length - 1))) wT lT rT hPT
  have hctT : CreatedAt h t
      (subAt (mergeLoop h) (qx.take (qx.length - 1 - (qy.length - 1)))) := by
    rw [hPT]; exact hct0
  have hchain := chain (qy.length - 1) (by omega) (h.length - 2) t hroot hctT
  have e6 : qx.length - 1 - (qy.length - 1) = qx.length - qy.length := by omega
  rw [e6] at hctT
  obtain ⟨wZ, lZ, rZ, hPZ⟩ :=
    path_count qx (mergeLoop h) hsubx (qx.length - qy.length - 1) (by omega)
  obtain ⟨t3, ht3_lt, hcZ0⟩ := count_sub_created hhuff (h.length - 1) (mergeLoop h)
    hFmem (qx.take (qx.length - qy.length - 1)) wZ lZ rZ hPZ
  have hcZ : CreatedAt h t3 (CNode.count wZ lZ rZ) := hcZ0
  have hpop_top : PoppedAt h t3
      (subAt (mergeLoop h) (qx.take ((qx.length - qy.length - 1) + 1))) :=
    created_child_pop (by omega) hPZ hcZ
  have e7 : qx.length - qy.length - 1 + 1 = qx.length - qy.length := by omega
  rw [e7] at hpop_top
  have hlt_pop : t < t3 := created_lt_pop hg hctT hpop_top
  have hbnd : t3 + 2 ≤ h.length := pop_bound hlen1 hpop_top
  omega

theorem wtSorted_foldl_push :
    ∀ (R : List (Char × Nat)) (acc : List CNode), wtSorted acc →
      wtSorted (R.foldl (fun h p => heapPush (.huff p.1 p.2 .empty .empty) h) acc) := by
  intro R
  induction R with
  | nil => intro acc hs; exact hs
  | cons p R' ih =>
    intro acc hs
    rw [List.foldl_cons]
    exact ih _ (wtSorted_heapPush _ hs)

theorem mem_foldl_push :
    ∀ (R : List (Char × Nat)) (acc : List CNode) (u : CNode),
      u ∈ R.foldl (fun h p => heapPush (.huff p.1 p.2 .empty .empty) h) acc →
      u ∈ acc ∨ ∃ p ∈ R, u = CNode.huff p.1 p.2 .empty .empty := by
  intro R
  induction R with
  | nil => intro acc u hu; exact Or.inl hu
  | cons p R' ih =>
    intro acc u hu
    rw [List.foldl_cons] at hu
    rcases ih _ u hu with hacc | ⟨q, hq, he⟩
    · rcases mem_heapPush_iff.mp hacc with rfl | hacc2
      · exact Or.inr ⟨p, by simp, rfl⟩
      · exact Or.inl hacc2
    · exact Or.inr ⟨q, by simp [hq], he⟩

theorem mem_nodeHeapOf {s : List Char} {u : CNode} (hu : u ∈ nodeHeapOf s) :
    ∃ p ∈ countCharFrequencies s, u = CNode.huff p.1 p.2 .empty .empty := by
  rcases mem_foldl_push _ _ u hu with hacc | hex
  · simp at hacc
  · exact hex

theorem nodeHeapOf_goodHeap (s : List Char) : GoodHeap (nodeHeapOf s) := by
  refine ⟨?_, ?_, ?_⟩
  · exact wtSorted_foldl_push _ [] (by rw [wtSorted]; exact List.Pairwise.nil)
  · have hperm := heapLetters_foldl_push (countCharFrequencies s) []
    have : heapLetters ([] : List CNode) = [] := rfl
    rw [this, List.append_nil] at hperm
    exact hperm.nodup_iff.mpr (countCharFrequencies_keys_nodup s)
  · intro t ht
    obtain ⟨p, hp, rfl⟩ := mem_nodeHeapOf ht
    simp [CNode.letters]

theorem nodeHeapOf_all_huff (s : List Char) :
    ∀ u ∈ nodeHeapOf s, ∃ c n, u = CNode.huff c n .empty .empty := by
  intro u hu
  obtain ⟨p, hp, rfl⟩ := mem_nodeHeapOf hu
  exact ⟨p.1, p.2, rfl⟩

/-! ## The claims -/

/-- C1 (amended): for every non-empty byte sequence that contains no newline
and whose derived code table only holds codes of at most ten digits (so that
the decimal `stoi` reading of every code stays inside the `int` range),
running encode and then decode on the produced file yields exactly the
input.  (Unamended, the claim fails: see the counterexample, where an
eleven-digit code overflows `stoi`.) -/
theorem claim_C1 (s : List Char) (hne : s ≠ []) (hnl : '\n' ∉ s)
    (hlen : ∀ p ∈ codeMapOf s, p.2.length ≤ 10) :
    decode (encode s) = .ok s :=
  decode_encode_ok hne hnl hlen

/-- Witness for C1 at the concrete input "ab". -/
theorem claim_C1_witness :
    (['a', 'b'] : List Char) ≠ [] ∧ '\n' ∉ (['a', 'b'] : List Char) ∧
      (∀ p ∈ codeMapOf ['a', 'b'], p.2.length ≤ 10) ∧
      decode (encode ['a', 'b']) = .ok ['a', 'b'] :=
  ⟨by decide, by decide, by decide, claim_C1 ['a', 'b'] (by decide) (by decide) (by decide)⟩

/-- C2 (amended): on empty input, encode derives no code table and emits no
table records and no payload — but the output file is created regardless
(it is opened before the frequency scan) and receives the lone blank
terminator line, and no error is raised.  The claim's assertion that the
empty input is detected before any output file is created is refuted by the
counterexample. -/
theorem claim_C2 :
    codeMapOf [] = [] ∧ tableOf [] = [] ∧ payloadOf [] = [] ∧ encode [] = ['\n'] :=
  ⟨rfl, rfl, rfl, rfl⟩

/-- C2 counterexample: encoding the empty input does produce an output file,
whose contents are the single terminator newline — not the absence of a
file that the claim describes. -/
theorem claim_C2_counterexample :
    encode [] = ['\n'] ∧ encode [] ≠ [] :=
  ⟨rfl, by decide⟩

/-- C3 (amended): each record's code string is first converted to an integer
by decimal `stoi`; the walk then follows that integer's binary
least-significant digits in order (`emod 2`, then `fdiv 2`), one step per
code character beyond the first, `1` selecting the right child and `0` the
left, creating missing intermediate nodes lazily and reusing existing ones;
the next least-significant digit's position receives a new leaf holding the
symbol.  Equivalently: the walk equals path insertion along
`lsbSteps (stoi code) code.length` — not along the code's characters read
left to right as the claim states (see the counterexample). -/
theorem claim_C3 (t : CNode) (v : Int) (len : Nat) (ch : Char) (h : 1 ≤ len) :
    insertWalk t v len ch = pathInsert t (lsbSteps v len) ch :=
  insertWalk_eq_pathInsert len t v ch h

/-- Witness for C3 at a concrete walk (code value 10, two digits). -/
theorem claim_C3_witness :
    1 ≤ 2 ∧ insertWalk (.count 0 .empty .empty) 10 2 'a' =
      pathInsert (.count 0 .empty .empty) (lsbSteps 10 2) 'a' :=
  ⟨by decide, claim_C3 (.count 0 .empty .empty) 10 2 'a' (by decide)⟩

/-- C3 counterexample: for the record ('a', "10") the claim places the leaf
right-then-left from the root, but the source walks `stoi("10") = 10` from
its least significant bit and places the leaf left-then-right; the two
resulting trees differ. -/
theorem claim_C3_counterexample :
    reconstructTree ['a', '1', '0', '\n', '\n'] =
      .ok ([('a', ['1', '0'])], [(['1', '0'], 'a')],
        .count 0 (.count 0 .empty (.huff 'a' 0 .empty .empty)) .empty, []) ∧
    claimedInsert (.count 0 .empty .empty) ['1', '0'] 'a' =
      .count 0 .empty (.count 0 (.huff 'a' 0 .empty .empty) .empty) ∧
    (CNode.count 0 (.count 0 .empty (.huff 'a' 0 .empty .empty)) .empty ≠
      CNode.count 0 .empty (.count 0 (.huff 'a' 0 .empty .empty) .empty)) :=
  ⟨rfl, rfl, by decide⟩

/-- C4: on a table whose record has an empty code ("a" then the blank line),
the decoder dies inside `stoi("")` — the uncaught `std::invalid_argument`
modelled as the error outcome — so no decoded output is produced; but no
MalformedTable error is ever reported, and the maps were already assigned
before the failed validation (the claim describes the intended behaviour,
which the code does not implement). -/
theorem claim_C4 : decode ['a', '\n', '\n'] = .error () := rfl

/-- C5: any two distinct codes recorded in the code table derived from a
built tree are mutually non-prefix. -/
theorem claim_C5 (s : List Char) (p q : Char × List Char) (hp : p ∈ codeMapOf s)
    (hq : q ∈ codeMapOf s) (hne : p.2 ≠ q.2) :
    isPreB p.2 q.2 = false ∧ isPreB q.2 p.2 = false := by
  by_cases hs : s = []
  · subst hs
    rw [show codeMapOf [] = [] from rfl] at hp
    exact absurd hp (List.not_mem_nil p)
  · have hpq : p ≠ q := fun h => hne (by rw [h])
    have h := codeMapOf_not_pre_of_mem hs hp hq hpq
    rw [isPreB_eq_false_iff, isPreB_eq_false_iff]
    exact ⟨h.1, h.2⟩

/-- Witness for C5 on the input "aab". -/
theorem claim_C5_witness :
    (('a', ['0']) ∈ codeMapOf ['a', 'a', 'b']) ∧ (('b', ['1']) ∈ codeMapOf ['a', 'a', 'b']) ∧
      ((['0'] : List Char) ≠ ['1']) ∧
      isPreB ['0'] ['1'] = false ∧ isPreB ['1'] ['0'] = false := by
  refine ⟨by decide, by decide, by decide, ?_⟩
  exact claim_C5 ['a', 'a', 'b'] ('a', ['0']) ('b', ['1']) (by decide) (by decide) (by decide)

/-- C6 (amended): for trees built by the Tree Builder from at least two
distinct symbols, every internal node has both children present and a count
equal to the sum of its children's counts.  (Unamended the claim fails: the
single-symbol builder tree has an internal root with only a right child,
and reconstructed trees have one-child internal nodes — see the
counterexample.) -/
theorem claim_C6 (s : List Char) (t : CNode)
    (h2 : 2 ≤ (countCharFrequencies s).length) (hb : builtTreeOf s = some t) :
    wfInternal t = true :=
  builtTree_wf h2 hb

/-- Witness for C6 on the input "ab". -/
theorem claim_C6_witness :
    2 ≤ (countCharFrequencies ['a', 'b']).length ∧
      builtTreeOf ['a', 'b'] =
        some (.count 2 (.huff 'b' 1 .empty .empty) (.huff 'a' 1 .empty .empty)) ∧
      wfInternal (.count 2 (.huff 'b' 1 .empty .empty) (.huff 'a' 1 .empty .empty)) = true := by
  refine ⟨by decide, by decide, ?_⟩
  exact claim_C6 ['a', 'b'] _ (by decide) (by decide)

/-- C6 counterexample: the tree built from the single-symbol input "a" has
an internal root with only a right child, and the tree reconstructed from
the table record ('a', "0") has an internal root with only a left child and
count 0 — both violating the claimed both-children-and-sum invariant. -/
theorem claim_C6_counterexample :
    builtTreeOf ['a'] = some (.count 1 .empty (.huff 'a' 1 .empty .empty)) ∧
    wfInternal (.count 1 .empty (.huff 'a' 1 .empty .empty)) = false ∧
    reconstructTree ['a', '0', '\n', '\n'] =
      .ok ([('a', ['0'])], [(['0'], 'a')],
        .count 0 (.huff 'a' 0 .empty .empty) .empty, []) ∧
    wfInternal (.count 0 (.huff 'a' 0 .empty .empty) .empty) = false :=
  ⟨rfl, rfl, rfl, rfl⟩

/-- C7: encoding an input made of one repeated symbol yields a code table
with exactly one entry, whose code is the single bit "1" (length 1, never
0), and decoding the encoded output reproduces the input exactly. -/
theorem claim_C7 (c : Char) (n : Nat) (hc : c ≠ '\n') (hn : 1 ≤ n) :
    codeMapOf (List.replicate n c) = [(c, ['1'])] ∧
      decode (encode (List.replicate n c)) = .ok (List.replicate n c) := by
  have hcm := codeMapOf_replicate c n hn
  refine ⟨hcm, decode_encode_ok ?_ ?_ ?_⟩
  · simp only [ne_eq, List.replicate_eq_nil_iff]
    omega
  · intro hm
    exact hc (List.eq_of_mem_replicate hm).symm
  · rw [hcm]
    intro p hp
    rw [List.mem_singleton] at hp
    subst hp
    simp

/-- Witness for C7 at the concrete input "aaaa". -/
theorem claim_C7_witness :
    ('a' ≠ '\n') ∧ 1 ≤ 4 ∧
      codeMapOf (List.replicate 4 'a') = [('a', ['1'])] ∧
      decode (encode (List.replicate 4 'a')) = .ok (List.replicate 4 'a') := by
  refine ⟨by decide, by decide, ?_, ?_⟩
  · exact (claim_C7 'a' 4 (by decide) (by decide)).1
  · exact (claim_C7 'a' 4 (by decide) (by decide)).2

/-- C8: code length monotonicity of the Tree Builder — for every input and
every two symbols of the derived code map, if the first symbol's recorded
input frequency is strictly higher than the second's, the first symbol's
code is no longer than the second's. -/
theorem claim_C8 (s : List Char) (c1 c2 : Char) (b1 b2 : List Char) (f1 f2 : Nat)
    (h1 : (c1, b1) ∈ codeMapOf s) (h2 : (c2, b2) ∈ codeMapOf s)
    (hf1 : alGet (countCharFrequencies s) c1 = some f1)
    (hf2 : alGet (countCharFrequencies s) c2 = some f2)
    (hgt : f2 < f1) : b1.length ≤ b2.length := by
  by_cases hs : s = []
  · subst hs
    rw [show codeMapOf [] = [] from rfl] at h1
    exact absurd h1 (List.not_mem_nil _)
  · obtain ⟨t, hb⟩ := builtTreeOf_isSome hs
    have hcm : codeMapOf s = recs t [] := codeMapOf_eq_recs hb
    have hbt := hb
    rw [builtTreeOf] at hbt
    rcases hh : nodeHeapOf s with _ | ⟨n1, rest⟩
    · rw [hh] at hbt
      simp [buildTree] at hbt
    · rcases rest with _ | ⟨n2, rest2⟩
      · rw [hh] at hbt
        rw [buildTree] at hbt
        simp only [Option.some.injEq] at hbt
        have ht : t = CNode.count n1.wt .empty n1 := by
          rw [← hbt]
          rfl
        obtain ⟨p, hp, hn1⟩ := mem_nodeHeapOf (by rw [hh]; simp : n1 ∈ nodeHeapOf s)
        have hrecs : recs t [] = [(p.1, ['1'])] := by
          rw [ht, hn1]
          rfl
        rw [hcm, hrecs] at h1 h2
        rw [List.mem_singleton] at h1 h2
        injection h1 with e1 e2
        injection h2 with e3 e4
        rw [e2, e4]
      · rw [hh] at hbt
        rw [buildTree] at hbt
        simp only [Option.some.injEq] at hbt
        have ht : t = mergeLoop (nodeHeapOf s) := by
          rw [← hbt, ← mergeLoop_cons₂, hh]
        have h2len : 2 ≤ (nodeHeapOf s).length := by
          rw [hh]
          simp
        have h1' : (c1, b1) ∈ recs (mergeLoop (nodeHeapOf s)) [] := by
          rw [← ht, ← hcm]
          exact h1
        have h2' : (c2, b2) ∈ recs (mergeLoop (nodeHeapOf s)) [] := by
          rw [← ht, ← hcm]
          exact h2
        obtain ⟨w1, w2, hm1, hm2, himp⟩ := mergeLoop_codes_mono (nodeHeapOf_goodHeap s)
          (nodeHeapOf_all_huff s) h2len h1' h2'
        obtain ⟨p1, hp1, he1⟩ := mem_nodeHeapOf hm1
        obtain ⟨p2, hp2, he2⟩ := mem_nodeHeapOf hm2
        obtain ⟨pc1, pn1⟩ := p1
        obtain ⟨pc2, pn2⟩ := p2
        injection he1 with ec1 en1
        injection he2 with ec2 en2
        have hg1 : alGet (countCharFrequencies s) c1 = some w1 := by
          rw [ec1, en1]
          exact alGet_of_mem_nodup (countCharFrequencies_keys_nodup s) hp1
        have hg2 : alGet (countCharFrequencies s) c2 = some w2 := by
          rw [ec2, en2]
          exact alGet_of_mem_nodup (countCharFrequencies_keys_nodup s) hp2
        rw [hf1] at hg1
        rw [hf2] at hg2
        injection hg1 with hw1
        injection hg2 with hw2
        exact himp (by omega)

theorem claim_C8_witness :
    ('a', ['0']) ∈ codeMapOf ['a', 'a', 'b'] ∧ ('b', ['1']) ∈ codeMapOf ['a', 'a', 'b'] ∧
      alGet (countCharFrequencies ['a', 'a', 'b']) 'a' = some 2 ∧
      alGet (countCharFrequencies ['a', 'a', 'b']) 'b' = some 1 ∧
      (['0'] : List Char).length ≤ (['1'] : List Char).length :=
  ⟨by decide, by decide, by decide, by decide,
    claim_C8 ['a', 'a', 'b'] 'a' 'b' ['0'] ['1'] 2 1 (by decide) (by decide)
      (by decide) (by decide) (by decide)⟩

/-- C9: the decoded output is a function only of the (symbol, code) records
read literally from the table text and the leftover payload stream — two
runs whose parsed records and payload agree decode identically; the
reconstructed tree is never consulted. -/
theorem claim_C9 (i1 i2 : List Char) (h : parseRecords i1 = parseRecords i2) :
    decode i1 = decode i2 := by
  rw [decode_factors, decode_factors, h]

/-- Witness for C9: two different raw inputs (trailing newline present or
absent) with identical parsed records and payload decode identically. -/
theorem claim_C9_witness :
    parseRecords ['a', '0', '\n', '\n'] = parseRecords ['a', '0'] ∧
      decode ['a', '0', '\n', '\n'] = decode ['a', '0'] :=
  ⟨by decide, claim_C9 ['a', '0', '\n', '\n'] ['a', '0'] (by decide)⟩

/-- C10: the payload loop reads characters with whitespace-skipping
formatted extraction, so its output on any stream equals the output of the
whitespace-oblivious loop on the stream with all whitespace (including any
trailing newline) removed: whitespace never enters the accumulated
candidate code and never changes the decoded output. -/
theorem claim_C10 (rcm : List (List Char × Char)) (s acc : List Char) :
    decodePayload rcm s acc = decodePayloadNoWS rcm (s.filter (fun x => !isWS x)) acc :=
  decodePayload_eq_noWS s.length rcm s acc (le_refl _)

end HuffmanCpp
